import Mathlib

/-!
# A verification development for the log-to-spreadsheet converter

This file gives a shallow embedding, in Lean 4, of the line-oriented
log-classification and table-assembly engine of `logparser.py`, and proves
(or refutes) the specified properties of that engine.

Modelling conventions:

* Python runtime values flowing through the engine are either `None` or
  strings; they are modelled as `Option String` (abbreviated `Name` below),
  with `none` standing for Python `None`.
* Python `dict`s whose iteration order matters (insertion order) are
  modelled as association lists; `dict[k] = v` updates in place when the
  key is present and appends otherwise, exactly like CPython.
* Python regular-expression matching (`re.match`, anchored at the start of
  the line) is abstracted as functions `String → Option String`
  (pattern extractors: `none` means no match, `some v` means a match whose
  named group yields `v`), `String → Bool` (skip regexes, where only
  truthiness of the match object is used) and
  `String → Option (String × String)` (row extractors yielding the
  key/value pair, covering both the key-group and key-literal forms).
* Strings are ASCII-oriented: `Char.isDigit`/`Char.isWhitespace` model
  Python's `str.isdigit`/`str.strip` character classes.
* Fallible Python code (assertion failures, raised exceptions) is modelled
  with `Option`: `none` is an aborted run.
-/

set_option autoImplicit false

namespace LogParser

/-- A Python value appearing as a hierarchy entry, table title, sheet key or
header: `None` (modelled `none`) or a string. -/
abbrev Name := Option String

section AList

variable {α : Type}

/-- Lookup in an insertion-ordered Python `dict` modelled as an association
list: the value stored at key `k`, if any. -/
def alFind (m : List (Name × α)) (k : Name) : Option α :=
  match m with
  | [] => none
  | (k', v) :: rest => if k' = k then some v else alFind rest k

/-- Python `m[k] = v` on an insertion-ordered `dict`: replace the value when
the key is present, append the pair otherwise. -/
def alSet (m : List (Name × α)) (k : Name) (v : α) : List (Name × α) :=
  match m with
  | [] => [(k, v)]
  | (k', v') :: rest => if k' = k then (k, v) :: rest else (k', v') :: alSet rest k v

theorem alFind_alSet_same (m : List (Name × α)) (k : Name) (v : α) :
    alFind (alSet m k v) k = some v := by
  induction m with
  | nil => simp [alFind, alSet]
  | cons p rest ih =>
    obtain ⟨k', v'⟩ := p
    by_cases h : k' = k <;> simp [alFind, alSet, h, ih]

theorem alFind_alSet_other (m : List (Name × α)) (k k' : Name) (v : α)
    (hne : k' ≠ k) : alFind (alSet m k v) k' = alFind m k' := by
  induction m with
  | nil => simp [alFind, alSet, Ne.symm hne]
  | cons p rest ih =>
    obtain ⟨k₀, v₀⟩ := p
    by_cases h : k₀ = k
    · subst h
      simp [alFind, alSet, Ne.symm hne]
    · by_cases h' : k₀ = k'
      · subst h'
        simp [alFind, alSet, h, hne]
      · simp [alFind, alSet, h, h', ih]

theorem mem_alSet {m : List (Name × α)} {k : Name} {v : α} {p : Name × α}
    (hp : p ∈ alSet m k v) : p = (k, v) ∨ p ∈ m := by
  induction m with
  | nil => simpa [alSet] using hp
  | cons q rest ih =>
    obtain ⟨k₀, v₀⟩ := q
    by_cases h : k₀ = k
    · simp only [alSet, if_pos h] at hp
      rcases List.mem_cons.mp hp with h' | h'
      · exact Or.inl h'
      · exact Or.inr (List.mem_cons_of_mem _ h')
    · simp only [alSet, if_neg h] at hp
      rcases List.mem_cons.mp hp with h' | h'
      · exact Or.inr (h' ▸ List.mem_cons_self _ _)
      · rcases ih h' with h'' | h''
        · exact Or.inl h''
        · exact Or.inr (List.mem_cons_of_mem _ h'')

theorem alFind_isSome_alSet (m : List (Name × α)) (k k' : Name) (v : α)
    (h : (alFind m k').isSome) : (alFind (alSet m k v) k').isSome := by
  by_cases hk : k' = k
  · subst hk
    simp [alFind_alSet_same]
  · rwa [alFind_alSet_other m k k' v hk]

end AList

/-- Python `str.strip()`: remove leading and trailing whitespace (character
class modelled by `Char.isWhitespace`). -/
def pyStrip (s : String) : String :=
  ⟨(((s.toList.dropWhile Char.isWhitespace).reverse.dropWhile
      Char.isWhitespace).reverse)⟩

/-- One assembled table, as stored by `DataCollector`: a title, the known
row headers and column headers in first-seen order, and the two-level
cell map `data[row][col] = value`. -/
structure Table where
  title : Name
  rows : List Name
  cols : List Name
  data : List (Name × List (Name × String))
deriving DecidableEq, Repr

/-- The brand-new table seeded with a single (row, col, value) entry that
`DataCollector.handleAddData` appends when it cannot fill. -/
def newTable (titleName columnName rowName : Name) (value : String) : Table :=
  { title := titleName
    rows := [rowName]
    cols := [columnName]
    data := [(rowName, [(columnName, value)])] }

/-- The value stored in a table at a given (row, col) position, if any. -/
def cellAt (t : Table) (rowName columnName : Name) : Option String :=
  (alFind t.data rowName).bind (fun m => alFind m columnName)

/-- `data[rowName][columnName] = value` for an already-present row.  The
source raises `KeyError` when `rowName` is not a key of `data`; that case is
unreachable from `handleAddData` (every name in `rows` has a `data` entry,
see `TableWF` below), and the map is returned unchanged there. -/
def setCell (data : List (Name × List (Name × String))) (rowName columnName : Name)
    (value : String) : List (Name × List (Name × String)) :=
  match alFind data rowName with
  | some m => alSet data rowName (alSet m columnName value)
  | none => data

/-- Fill case (a) of `handleAddData`: `rowName` is new to the table.  The row
header is appended, `data[rowName]` is reset to a fresh single-cell dict, and
the column header is appended when itself new. -/
def fillNewRow (t : Table) (columnName rowName : Name) (value : String) : Table :=
  { t with
    rows := t.rows ++ [rowName]
    cols := if columnName ∈ t.cols then t.cols else t.cols ++ [columnName]
    data := alSet t.data rowName [(columnName, value)] }

/-- Fill case (b) of `handleAddData`: `rowName` known, `columnName` new. -/
def fillNewCol (t : Table) (columnName rowName : Name) (value : String) : Table :=
  { t with
    cols := t.cols ++ [columnName]
    data := setCell t.data rowName columnName value }

/-- Fill case (c) of `handleAddData`: both headers known, cell not yet
populated. -/
def fillOldCell (t : Table) (columnName rowName : Name) (value : String) : Table :=
  { t with data := setCell t.data rowName columnName value }

/-- The fill attempt of `DataCollector.handleAddData` on the last table of
the sheet (already known to have the same title): try the three fill cases
in source order; `none` means no fill was possible (the exact cell is
already populated). -/
def fillTable (t : Table) (columnName rowName : Name) (value : String) : Option Table :=
  if rowName ∈ t.rows then
    if columnName ∈ t.cols then
      if (cellAt t rowName columnName).isSome then none
      else some (fillOldCell t columnName rowName value)
    else some (fillNewCol t columnName rowName value)
  else some (fillNewRow t columnName rowName value)

/-- `DataCollector.handleAddData(sheet, titleName, columnName, rowName,
value)`: inspect the last table of the sheet; if it exists, carries the same
title and a fill case applies, replace it by the filled table, otherwise
append a brand-new single-entry table. -/
def handleAddData (sheet : List Table) (titleName columnName rowName : Name)
    (value : String) : List Table :=
  match sheet.getLast? with
  | some lastTable =>
    if titleName = lastTable.title then
      match fillTable lastTable columnName rowName value with
      | some t => sheet.dropLast ++ [t]
      | none => sheet ++ [newTable titleName columnName rowName value]
    else sheet ++ [newTable titleName columnName rowName value]
  | none => sheet ++ [newTable titleName columnName rowName value]

/-- The mutable state of a `DataCollector`: the named output groups (the
insertion-ordered `sheetDict`) and the default group used when no dimension
has the `sheet` role. -/
structure Collector where
  sheetDict : List (Name × List Table)
  defaultSheet : List Table
deriving DecidableEq, Repr

/-- The collector produced by `DataCollector.__init__`. -/
def initCollector : Collector :=
  { sheetDict := [], defaultSheet := [] }

/-- Which output group an `addData` call writes to: the default group, or
the named group selected by the (last) `sheet`-role dimension value. -/
inductive SheetAddr where
  | default
  | key (h : Name)
deriving DecidableEq, Repr

/-- The running state of the role-partitioning loop of
`DataCollector.addData`: the column name, row name, collected title parts,
the (possibly extended) `sheetDict` and the addressed group. -/
structure Partition where
  colName : Name
  rowName : Name
  dup : List Name
  dict : List (Name × List Table)
  addr : SheetAddr
deriving Repr

/-- One iteration of the role loop of `DataCollector.addData` on the pair
(hierarchy value, configured role): a `sheet` role creates the group when
missing and addresses it, `row`/`col` overwrite the row/column name, every
other role string collects the value into the title parts. -/
def partitionStep (acc : Partition) (x : Name × String) : Partition :=
  if x.2 = "sheet" then
    { acc with
      dict := if (alFind acc.dict x.1).isSome then acc.dict else alSet acc.dict x.1 []
      addr := SheetAddr.key x.1 }
  else if x.2 = "row" then { acc with rowName := x.1 }
  else if x.2 = "col" then { acc with colName := x.1 }
  else { acc with dup := acc.dup ++ [x.1] }

/-- The role loop of `DataCollector.addData` over the hierarchy values
paired with their configured roles, in list order. -/
def partitionRoles (l : List (Name × String)) (acc : Partition) : Partition :=
  l.foldl partitionStep acc

/-- The title computation of `DataCollector.addData`: a single title part is
used as-is (even when it is `None`); otherwise the parts are joined with
`,`, which raises `TypeError` (modelled `none`) when a part is `None`. -/
def computeTitle (dup : List Name) : Option Name :=
  match dup with
  | [h] => some h
  | l => (l.mapM id).map (fun ss => some (String.intercalate "," ss))

/-- The initial partition state of one `addData` call: row and column names
default to the data key, no title parts, the current `sheetDict`, and the
default group. -/
def initPartition (c : Collector) (key : String) : Partition :=
  { colName := some key
    rowName := some key
    dup := []
    dict := c.sheetDict
    addr := SheetAddr.default }

/-- The partition computed by `DataCollector.addData` for one call.  The
source iterates `i` over `range(len(hierarchyDataList))` reading
`order_handling[i]`; its asserts guarantee the two lists have equal length,
so the traversal is modelled by zipping them. -/
def partitionFor (roles : List String) (c : Collector) (hier : List Name)
    (key : String) : Partition :=
  partitionRoles (hier.zip roles) (initPartition c key)

/-- `DataCollector.addData(self, hierarchyDataList, key, value)`: partition
the hierarchy values by role, compute the title, and hand the single
(row, col, value) entry to `handleAddData` on the addressed group.  `none`
models the `TypeError` raised by `','.join` on a `None` title part. -/
def addData (roles : List String) (c : Collector) (hier : List Name)
    (key value : String) : Option Collector :=
  let pr := partitionFor roles c hier key
  (computeTitle pr.dup).map (fun titleName =>
    match pr.addr with
    | SheetAddr.default =>
      { sheetDict := pr.dict
        defaultSheet := handleAddData c.defaultSheet titleName pr.colName pr.rowName value }
    | SheetAddr.key h =>
      { sheetDict :=
          alSet pr.dict h
            (handleAddData ((alFind pr.dict h).getD []) titleName pr.colName pr.rowName value)
        defaultSheet := c.defaultSheet })

/-- A natively-typed spreadsheet cell value, as produced by
`DataCollector.processCellData`: a Python `int`, a Python `float`, or a
string.  The float constructor records the accepted literal; its IEEE-754
value (`float(s)` in the source) is kept symbolic, since no claim concerns
floating-point arithmetic. -/
inductive CellValue where
  | intVal (n : Int)
  | floatVal (s : String)
  | strVal (s : String)
deriving DecidableEq, Repr

/-- The test `intBase.isdigit()` of `processCellData` applied after removing
one leading `-` (the `stripped.startswith('-')` slice): nonempty and all
(ASCII) digits. -/
def isPyIntString (s : String) : Bool :=
  match s.toList with
  | [] => false
  | c :: rest =>
    if c = '-' then !rest.isEmpty && rest.all Char.isDigit
    else (c :: rest).all Char.isDigit

/-- Value of a nonempty ASCII digit string. -/
def digitsToNat (l : List Char) : Nat :=
  l.foldl (fun a c => a * 10 + (c.toNat - 48)) 0

/-- Python `int(stripped)` on a string accepted by the integer test. -/
def pyIntVal (s : String) : Int :=
  match s.toList with
  | '-' :: rest => -(digitsToNat rest : Int)
  | l => (digitsToNat l : Int)

/-- Strip at most one leading sign character. -/
def stripSign (l : List Char) : List Char :=
  match l with
  | '+' :: rest => rest
  | '-' :: rest => rest
  | _ => l

/-- Tail of a CPython `digitpart` (`digit (["_"] digit)*`) after its first
digit; the flag records whether the previous character was an underscore
(which must be followed by a digit). -/
def digitsTail (afterUnderscore : Bool) (l : List Char) : Bool :=
  match l with
  | [] => !afterUnderscore
  | c :: rest =>
    if c.isDigit then digitsTail false rest
    else if c = '_' && !afterUnderscore then digitsTail true rest
    else false

/-- A CPython `digitpart`: one or more digits with single underscores
allowed between digits (PEP 515). -/
def isDigitpart (l : List Char) : Bool :=
  match l with
  | [] => false
  | c :: rest => c.isDigit && digitsTail false rest

/-- A `digitpart` with an optional leading sign (the exponent of a float
literal). -/
def isSignedDigitpart (l : List Char) : Bool :=
  isDigitpart (stripSign l)

/-- The mantissa of a CPython float literal: digits, or digits on at least
one side of a single point. -/
def mantissaOk (m : List Char) : Bool :=
  match m.splitOn '.' with
  | [a] => isDigitpart a
  | [a, b] => (isDigitpart a && (b.isEmpty || isDigitpart b)) || (a.isEmpty && isDigitpart b)
  | _ => false

/-- Acceptance by CPython `float()` of an already lowercased, sign-stripped
character sequence: the special spellings, or a mantissa with an optional
exponent. -/
def pyFloatCore (l : List Char) : Bool :=
  if l = "inf".toList || l = "infinity".toList || l = "nan".toList then true
  else
    match l.splitOn 'e' with
    | [m] => mantissaOk m
    | [m, ex] => mantissaOk m && isSignedDigitpart ex
    | _ => false

/-- Whether CPython `float(s)` succeeds on an already-stripped string
(ASCII model; the `e` of the exponent and the special spellings are
case-insensitive). -/
def pyFloatParses (s : String) : Bool :=
  pyFloatCore (stripSign (s.toList.map Char.toLower))

/-- `DataCollector.processCellData(string)`: coerce a cell string to an
`int` when, after stripping, it is an optional `-` followed by digits; else
to a `float` when `float()` accepts it; else keep the stripped string. -/
def processCellData (s : String) : CellValue :=
  let stripped := pyStrip s
  if isPyIntString stripped then CellValue.intVal (pyIntVal stripped)
  else if pyFloatParses stripped then CellValue.floatVal stripped
  else CellValue.strVal stripped

/-- A single call to the output sink: `write(row, col, value)`. -/
abbrev Write := Nat × Nat × CellValue

/-- The two-level cell map of a table. -/
abbrev TableData := List (Name × List (Name × String))

/-- `processCellData` applied to a table title or header.  Those values can
be Python `None` (an unset dimension reached the collector); the source then
raises `AttributeError` in `string.strip()`, modelled by `none`. -/
def processCellName : Name → Option CellValue
  | some s => some (processCellData s)
  | none => none

/-- The column-header loop of `writeSheet`: `write(curRowBase, 1 + c,
processCellData(cols[c]))` for `c` counting up from `c₀`. -/
def writeColsAux (base c₀ : Nat) (cols : List Name) : Option (List Write) :=
  match cols with
  | [] => some []
  | h :: rest =>
    match processCellName h, writeColsAux base (c₀ + 1) rest with
    | some v, some ws => some ((base, 1 + c₀, v) :: ws)
    | _, _ => none

/-- The cell loop of one data row of `writeSheet`: a write at column
`1 + c` for every column header present in the row's cell dict, skipped
(left blank) otherwise. -/
def writeCellsAux (rowIndex c₀ : Nat) (cols : List Name)
    (rowData : List (Name × String)) : List Write :=
  match cols with
  | [] => []
  | k :: rest =>
    match alFind rowData k with
    | some v => (rowIndex, 1 + c₀, processCellData v) :: writeCellsAux rowIndex (c₀ + 1) rest rowData
    | none => writeCellsAux rowIndex (c₀ + 1) rest rowData

/-- The data-row loop of `writeSheet`, row index counting up from `r₀`:
each row writes its header at column 0 of row `base + 1 + r` and then its
cells.  The source reads `data[rows[r]]`, raising `KeyError` when absent;
that case is unreachable (every listed row header has a `data` entry, see
`TableWF`), and is modelled by the empty row dict. -/
def writeRowsAux (base : Nat) (cols : List Name) (data : TableData) (r₀ : Nat)
    (rows : List Name) : Option (List Write) :=
  match rows with
  | [] => some []
  | rh :: rest =>
    match processCellName rh, writeRowsAux base cols data (r₀ + 1) rest with
    | some hv, some ws =>
      some (((base + 1 + r₀, 0, hv) ::
        writeCellsAux (base + 1 + r₀) 0 cols ((alFind data rh).getD [])) ++ ws)
    | _, _ => none

/-- The per-table body of `DataCollector.writeSheet`: title at
`(curRowBase, 0)`, column headers on the same row, then the data rows. -/
def writeTable (base : Nat) (t : Table) : Option (List Write) :=
  match processCellName t.title, writeColsAux base 0 t.cols,
      writeRowsAux base t.cols t.data 0 t.rows with
  | some tv, some cw, some rw => some ((base, 0, tv) :: cw ++ rw)
  | _, _, _ => none

/-- The table loop of `DataCollector.writeSheet` with its running
`curRowBase`, advanced by `2 + len(rows)` after each table. -/
def writeSheetAux (base : Nat) (sheetData : List Table) : Option (List Write) :=
  match sheetData with
  | [] => some []
  | t :: rest =>
    match writeTable base t, writeSheetAux (base + (2 + t.rows.length)) rest with
    | some w, some ws => some (w ++ ws)
    | _, _ => none

/-- `DataCollector.writeSheet(sheetData, sheetOutput)`: all writes issued to
one worksheet, the row cursor starting at 0. -/
def writeSheet (sheetData : List Table) : Option (List Write) :=
  writeSheetAux 0 sheetData

/-- Sequence a list of optional values, `none` when any entry is `none`. -/
def seqOpt {α : Type} : List (Option α) → Option (List α)
  | [] => some []
  | none :: _ => none
  | some a :: rest =>
    match seqOpt rest with
    | some l => some (a :: l)
    | none => none

/-- Spec-side row cursor of table `k`: the sum of `2 + len(rowHeaders)`
(one header row, the data rows, one blank separator row) over the preceding
tables, starting at 0. -/
def specBase (sheetData : List Table) (k : Nat) : Nat :=
  ((sheetData.take k).map (fun t => 2 + t.rows.length)).sum

/-- Spec-side header row of a table: its title at column 0 of the cursor
row and its column headers at columns `1..len(colHeaders)` of the same
row. -/
def specHeaderRow (base : Nat) (t : Table) : Option (List Write) :=
  match processCellName t.title,
      seqOpt (t.cols.enum.map (fun p => (processCellName p.2).map
        (fun v => ((base, 1 + p.1, v) : Write)))) with
  | some tv, some hs => some ((base, 0, tv) :: hs)
  | _, _ => none

/-- Spec-side data row `r` of a table: the row header in column 0 and each
column's cell value in the corresponding column, left blank when absent. -/
def specDataRow (base : Nat) (cols : List Name) (data : TableData) (r : Nat)
    (rh : Name) : Option (List Write) :=
  (processCellName rh).map (fun hv =>
    (base + 1 + r, 0, hv) ::
      cols.enum.filterMap (fun q =>
        (alFind ((alFind data rh).getD []) q.2).map
          (fun v => ((base + 1 + r, 1 + q.1, processCellData v) : Write))))

/-- Spec-side layout of one table at a given cursor row. -/
def specBlock (base : Nat) (t : Table) : Option (List Write) :=
  match specHeaderRow base t,
      seqOpt (t.rows.enum.map (fun p => specDataRow base t.cols t.data p.1 p.2)) with
  | some hw, some rws => some (hw ++ rws.flatten)
  | _, _ => none

/-- Spec-side layout of a whole worksheet: every table laid out at its
prefix-sum cursor row. -/
def specLayout (sheetData : List Table) : Option (List Write) :=
  (seqOpt (sheetData.enum.map (fun p => specBlock (specBase sheetData p.1) p.2))).map List.flatten

/-- One configured hierarchy extractor (one entry of `match_orders`):
either a keyword-series lookup table (the entry with the empty regex, whose
group name indexes `match_series_dict`) or a pattern extractor, the
abstraction of `re.match` plus the named capture group. -/
inductive HierExtractor where
  | series (tbl : List (String × String))
  | pattern (m : String → Option String)

/-- The whole declarative configuration surface of the engine, the
module-level constants of the source made explicit. -/
structure Config where
  hierExtractors : List HierExtractor
  orderHandling : List String
  rowExtractors : List (String → Option (String × String))
  skipLiterals : List String
  skipRegexes : List (String → Bool)

/-- The only validation the source performs at configuration-load time: the
module-level `assert len(match_orders) == len(order_handling)`. -/
def configLoadCheck (matchOrders : List HierExtractor)
    (orderHandling : List String) : Bool :=
  matchOrders.length == orderHandling.length

/-- The keyword-series inner loop: exact equality of the stripped line
against every literal header, in dict (insertion) order; a hit yields the
mapped canonical series name. -/
def seriesLookup (tbl : List (String × String)) (s : String) : Option String :=
  match tbl with
  | [] => none
  | (header, seriesName) :: rest =>
    if s = header then some seriesName else seriesLookup rest s

/-- Whether (and with which extracted value) one hierarchy extractor
matches a stripped line. -/
def extractorMatch (e : HierExtractor) (s : String) : Option String :=
  match e with
  | HierExtractor.series tbl => seriesLookup tbl s
  | HierExtractor.pattern m => m s

/-- The hierarchy loop of `processLog`: try every dimension in configured
priority order and return the first match, as (dimension index, extracted
value). -/
def matchHier (es : List HierExtractor) (s : String) : Option (Nat × String) :=
  match es with
  | [] => none
  | e :: rest =>
    match extractorMatch e s with
    | some v => some (0, v)
    | none => (matchHier rest s).map (fun p => (p.1 + 1, p.2))

/-- The row-extractor loop of `processLog`: first matching row extractor
wins, yielding the (key, value) pair. -/
def matchRow (fs : List (String → Option (String × String))) (s : String) :
    Option (String × String) :=
  match fs with
  | [] => none
  | f :: rest =>
    match f s with
    | some kv => some kv
    | none => matchRow rest s

/-- The two skip checks of `processLog` on the stripped line: equality with
a literal skip string, or a skip regex matching at line start. -/
def isSkipLine (cfg : Config) (s : String) : Bool :=
  cfg.skipLiterals.contains s || cfg.skipRegexes.any (fun f => f s)

/-- The classification of one input line. -/
inductive LineResult where
  | skip
  | hierarchyUpdate (i : Nat) (v : String)
  | rowData (key value : String)
  | unrecognized
deriving DecidableEq, Repr

/-- The per-line classification logic of `processLog`, in source order:
strip, skip checks, hierarchy extractors in priority order, then row
extractors, else unrecognized. -/
def classify (cfg : Config) (line : String) : LineResult :=
  let s := pyStrip line
  if isSkipLine cfg s then LineResult.skip
  else
    match matchHier cfg.hierExtractors s with
    | some (i, v) => LineResult.hierarchyUpdate i v
    | none =>
      match matchRow cfg.rowExtractors s with
      | some (k, v) => LineResult.rowData k v
      | none => LineResult.unrecognized

/-- The driver state threaded through the line loop of `processLog`: the
hierarchy vector, the collector, the `isHavingData` flag and the diagnostics
printed so far (1-based line number with the stripped text). -/
structure DriverState where
  hier : List Name
  collector : Collector
  isHavingData : Bool
  diags : List (Nat × String)

/-- The state at the start of `processLog`: all hierarchy dimensions unset,
a fresh collector, no data, no diagnostics. -/
def initState (cfg : Config) : DriverState :=
  { hier := List.replicate cfg.hierExtractors.length none
    collector := initCollector
    isHavingData := false
    diags := [] }

/-- The body of the line loop of `processLog` for one line `lc` (1-based):
apply the classification to the driver state.  A skip line changes nothing;
a hierarchy line updates exactly the matched dimension; a row-data line
forwards the hierarchy snapshot with the key/value to `addData` and sets
`isHavingData`; an unrecognized line only appends a diagnostic. -/
def procLine (cfg : Config) (st : DriverState) (lc : Nat) (line : String) :
    Option DriverState :=
  match classify cfg line with
  | LineResult.skip => some st
  | LineResult.hierarchyUpdate i v => some { st with hier := st.hier.set i (some v) }
  | LineResult.rowData k v =>
    (addData cfg.orderHandling st.collector st.hier k v).map
      (fun c => { st with collector := c, isHavingData := true })
  | LineResult.unrecognized => some { st with diags := st.diags ++ [(lc, pyStrip line)] }

/-- The line loop of `processLog` over the remaining lines, `lc` the
1-based number of the first of them. -/
def runLines (cfg : Config) (st : DriverState) (lc : Nat) (lines : List String) :
    Option DriverState :=
  match lines with
  | [] => some st
  | l :: rest => (procLine cfg st lc l).bind (fun st' => runLines cfg st' (lc + 1) rest)

/-- The finished output artifact: one addressable region per worksheet
(`some name` for a named sheet, `none` for the single unnamed default
sheet), with its writes. -/
abbrev Artifact := List (Option Name × List Write)

/-- `DataCollector.write`: one named worksheet per `sheetDict` group when a
`sheet` role is configured (asserting the default group stayed empty),
otherwise one unnamed worksheet from the default group (asserting
`sheetDict` stayed empty).  `none` models an assertion failure or a raised
exception while writing. -/
def emitCollector (roles : List String) (c : Collector) : Option Artifact :=
  if roles.contains "sheet" then
    if c.defaultSheet = [] then
      c.sheetDict.mapM (fun p => (writeSheet p.2).map (fun ws => (some p.1, ws)))
    else none
  else
    if c.sheetDict = [] then
      (writeSheet c.defaultSheet).map (fun ws => [(none, ws)])
    else none

/-- `processLog(logFileName, outputName)`: run the line loop from the
initial state; afterwards, when no data point was ever produced, return
normally without creating any output artifact, otherwise emit the
collector.  The result pairs the artifact (`none` when emission was
skipped) with the printed diagnostics; the outer `Option` is `none` only
for an aborted (crashed) run. -/
def processLog (cfg : Config) (lines : List String) :
    Option (Option Artifact × List (Nat × String)) :=
  (runLines cfg (initState cfg) 1 lines).bind (fun st =>
    if st.isHavingData then
      (emitCollector cfg.orderHandling st.collector).map (fun a => (some a, st.diags))
    else some (none, st.diags))

/-- One (row, col, value) entry handed to the table assembler under a fixed
title. -/
structure Call where
  row : Name
  col : Name
  val : String
deriving DecidableEq, Repr

/-- A sequence of assembler calls under an unchanged title, starting from a
fresh (empty) output group. -/
def runCalls (titleName : Name) (calls : List Call) : List Table :=
  calls.foldl (fun sheet k => handleAddData sheet titleName k.col k.row k.val) []

/-- The values stored at one (row, col) position across the tables of a
group, in table order. -/
def cellValues (sheet : List Table) (r c : Name) : List String :=
  sheet.filterMap (fun t => cellAt t r c)

/-- Structural well-formedness of a table, maintained by the assembler:
every key of `data` is a listed row header whose inner keys are listed
column headers, and conversely every listed row header owns a `data`
entry. -/
def TableWF (t : Table) : Prop :=
  (∀ p ∈ t.data, p.1 ∈ t.rows ∧ ∀ q ∈ p.2, q.1 ∈ t.cols) ∧
  (∀ r ∈ t.rows, (alFind t.data r).isSome)

/-- First-occurrence order: the distinct elements of a list, each at the
position of its first occurrence. -/
def firstOccursAux (acc : List Name) (l : List Name) : List Name :=
  match l with
  | [] => acc
  | x :: rest => firstOccursAux (if x ∈ acc then acc else acc ++ [x]) rest

/-- The distinct elements of a list in first-occurrence order. -/
def firstOccurs (l : List Name) : List Name :=
  firstOccursAux [] l

theorem alFind_mem {α : Type} {m : List (Name × α)} {k : Name} {v : α}
    (h : alFind m k = some v) : (k, v) ∈ m := by
  induction m with
  | nil => simp [alFind] at h
  | cons p rest ih =>
    obtain ⟨k₀, v₀⟩ := p
    by_cases hk : k₀ = k
    · subst hk
      have hv : some v₀ = some v := by simpa [alFind] using h
      obtain rfl := Option.some.inj hv
      exact List.mem_cons_self _ _
    · simp only [alFind, if_neg hk] at h
      exact List.mem_cons_of_mem _ (ih h)

theorem sheet_eq_nil_or_concat (sheet : List Table) :
    sheet = [] ∨ ∃ pre last, sheet = pre ++ [last] := by
  rcases List.eq_nil_or_concat sheet with h | ⟨pre, last, h⟩
  · exact Or.inl h
  · exact Or.inr ⟨pre, last, by simpa [List.concat_eq_append] using h⟩

theorem handleAddData_nil (titleName columnName rowName : Name) (value : String) :
    handleAddData [] titleName columnName rowName value =
      [newTable titleName columnName rowName value] := by
  simp [handleAddData]

theorem handleAddData_concat (pre : List Table) (last : Table)
    (titleName columnName rowName : Name) (value : String) :
    handleAddData (pre ++ [last]) titleName columnName rowName value =
      if titleName = last.title then
        match fillTable last columnName rowName value with
        | some t => pre ++ [t]
        | none => (pre ++ [last]) ++ [newTable titleName columnName rowName value]
      else (pre ++ [last]) ++ [newTable titleName columnName rowName value] := by
  unfold handleAddData
  rw [List.getLast?_concat]
  by_cases h : titleName = last.title
  · simp only [if_pos h]
    cases fillTable last columnName rowName value with
    | none => simp
    | some t => simp [List.dropLast_concat]
  · simp [if_neg h]

/-- C1: the new-table-or-fill decision of the table assembler inspects only
the last table of the addressed group.  On an empty group, or when the last
table's title differs, a brand-new single-entry table is appended; on a
title match the three fill cases are tried in order (new row name, else new
column name, else unpopulated cell), each replacing only the last table; and
only when the exact cell is already populated is a brand-new table with the
same title appended immediately after the previous one. -/
theorem c1_handleAddData_decision (sheet pre : List Table) (last : Table)
    (titleName columnName rowName : Name) (value : String) :
    (sheet = [] →
      handleAddData sheet titleName columnName rowName value =
        [newTable titleName columnName rowName value]) ∧
    (sheet = pre ++ [last] →
      (titleName ≠ last.title →
        handleAddData sheet titleName columnName rowName value =
          sheet ++ [newTable titleName columnName rowName value]) ∧
      (titleName = last.title → rowName ∉ last.rows →
        handleAddData sheet titleName columnName rowName value =
          pre ++ [fillNewRow last columnName rowName value]) ∧
      (titleName = last.title → rowName ∈ last.rows → columnName ∉ last.cols →
        handleAddData sheet titleName columnName rowName value =
          pre ++ [fillNewCol last columnName rowName value]) ∧
      (titleName = last.title → rowName ∈ last.rows → columnName ∈ last.cols →
        cellAt last rowName columnName = none →
        handleAddData sheet titleName columnName rowName value =
          pre ++ [fillOldCell last columnName rowName value]) ∧
      (titleName = last.title → rowName ∈ last.rows → columnName ∈ last.cols →
        (cellAt last rowName columnName).isSome →
        handleAddData sheet titleName columnName rowName value =
          sheet ++ [newTable titleName columnName rowName value])) := by
  constructor
  · intro h
    subst h
    exact handleAddData_nil _ _ _ _
  · intro h
    subst h
    refine ⟨?_, ?_, ?_, ?_, ?_⟩
    · intro hne
      rw [handleAddData_concat, if_neg hne]
    · intro heq hrow
      rw [handleAddData_concat, if_pos heq]
      simp [fillTable, hrow]
    · intro heq hrow hcol
      rw [handleAddData_concat, if_pos heq]
      simp [fillTable, hrow, hcol]
    · intro heq hrow hcol hcell
      rw [handleAddData_concat, if_pos heq]
      simp [fillTable, hrow, hcol, hcell]
    · intro heq hrow hcol hcell
      rw [handleAddData_concat, if_pos heq]
      simp [fillTable, hrow, hcol, hcell]

/-- Witness for C1: a concrete group with one table, exercising the
duplicate-cell case (a brand-new table is appended after the previous one)
and the empty-group case. -/
theorem c1_handleAddData_decision_witness :
    handleAddData [newTable (some "t") (some "c") (some "r") "v"]
        (some "t") (some "c") (some "r") "x" =
      [newTable (some "t") (some "c") (some "r") "v",
       newTable (some "t") (some "c") (some "r") "x"] ∧
    handleAddData [] (some "t") (some "c") (some "r") "x" =
      [newTable (some "t") (some "c") (some "r") "x"] := by
  have h := c1_handleAddData_decision [newTable (some "t") (some "c") (some "r") "v"]
    [] (newTable (some "t") (some "c") (some "r") "v") (some "t") (some "c") (some "r") "x"
  constructor
  · have h5 := (h.2 (by simp)).2.2.2.2
    have := h5 rfl (by decide) (by decide) (by decide)
    simpa using this
  · exact (c1_handleAddData_decision [] [] (newTable (some "t") (some "c") (some "r") "v")
      (some "t") (some "c") (some "r") "x").1 rfl

theorem newTable_WF (titleName columnName rowName : Name) (value : String) :
    TableWF (newTable titleName columnName rowName value) := by
  constructor
  · intro p hp
    simp only [newTable, List.mem_singleton] at hp
    subst hp
    refine ⟨by simp [newTable], ?_⟩
    intro q hq
    simp only [List.mem_singleton] at hq
    subst hq
    simp [newTable]
  · intro r hr
    simp only [newTable, List.mem_singleton] at hr
    subst hr
    simp [newTable, alFind]

theorem setCell_WF {t : Table} (hwf : TableWF t) (columnName rowName : Name)
    (value : String) (hrow : rowName ∈ t.rows) :
    (∀ p ∈ setCell t.data rowName columnName value,
      p.1 ∈ t.rows ∧ ∀ q ∈ p.2, q.1 ∈ t.cols ++ [columnName]) ∧
    (∀ r ∈ t.rows, (alFind (setCell t.data rowName columnName value) r).isSome) := by
  obtain ⟨hwf1, hwf2⟩ := hwf
  obtain ⟨m, hm⟩ := Option.isSome_iff_exists.mp (hwf2 rowName hrow)
  constructor
  · intro p hp
    simp only [setCell, hm] at hp
    rcases mem_alSet hp with h | h
    · subst h
      refine ⟨hrow, ?_⟩
      intro q hq
      rcases mem_alSet hq with h' | h'
      · subst h'
        simp
      · exact List.mem_append_left _ ((hwf1 _ (alFind_mem hm)).2 q h')
    · obtain ⟨h1, h2⟩ := hwf1 p h
      exact ⟨h1, fun q hq => List.mem_append_left _ (h2 q hq)⟩
  · intro r hr
    simp only [setCell, hm]
    exact alFind_isSome_alSet _ _ _ _ (hwf2 r hr)

theorem fillTable_WF {t t' : Table} {columnName rowName : Name} {value : String}
    (hwf : TableWF t) (hfill : fillTable t columnName rowName value = some t') :
    TableWF t' := by
  obtain ⟨hwf1, hwf2⟩ := hwf
  unfold fillTable at hfill
  by_cases hrow : rowName ∈ t.rows
  · rw [if_pos hrow] at hfill
    by_cases hcol : columnName ∈ t.cols
    · rw [if_pos hcol] at hfill
      by_cases hcell : (cellAt t rowName columnName).isSome
      · simp [hcell] at hfill
      · simp only [hcell, Bool.false_eq_true, if_neg, if_false] at hfill
        obtain rfl := Option.some.inj hfill
        obtain ⟨hs1, hs2⟩ := setCell_WF ⟨hwf1, hwf2⟩ columnName rowName value hrow
        constructor
        · intro p hp
          obtain ⟨h1, h2⟩ := hs1 p hp
          refine ⟨h1, fun q hq => ?_⟩
          rcases List.mem_append.mp (h2 q hq) with h | h
          · exact h
          · simpa using (List.mem_singleton.mp h) ▸ hcol
        · exact hs2
    · rw [if_neg hcol] at hfill
      obtain rfl := Option.some.inj hfill
      obtain ⟨hs1, hs2⟩ := setCell_WF ⟨hwf1, hwf2⟩ columnName rowName value hrow
      exact ⟨hs1, hs2⟩
  · rw [if_neg hrow] at hfill
    obtain rfl := Option.some.inj hfill
    constructor
    · intro p hp
      simp only [fillNewRow] at hp
      rcases mem_alSet hp with h | h
      · subst h
        refine ⟨by simp [fillNewRow], ?_⟩
        intro q hq
        simp only [List.mem_singleton] at hq
        subst hq
        by_cases hc : columnName ∈ t.cols <;> simp [fillNewRow, hc]
      · obtain ⟨h1, h2⟩ := hwf1 p h
        refine ⟨by simp [fillNewRow, List.mem_append_left _ h1], fun q hq => ?_⟩
        by_cases hc : columnName ∈ t.cols
        · simpa [fillNewRow, hc] using h2 q hq
        · simp [fillNewRow, hc, List.mem_append_left _ (h2 q hq)]
    · intro r hr
      simp only [fillNewRow] at hr ⊢
      rcases List.mem_append.mp hr with h | h
      · exact alFind_isSome_alSet _ _ _ _ (hwf2 r h)
      · obtain rfl := List.mem_singleton.mp h
        simp [alFind_alSet_same]

theorem fillTable_title {t t' : Table} {columnName rowName : Name} {value : String}
    (hfill : fillTable t columnName rowName value = some t') : t'.title = t.title := by
  unfold fillTable at hfill
  by_cases hrow : rowName ∈ t.rows
  · by_cases hcol : columnName ∈ t.cols
    · by_cases hcell : (cellAt t rowName columnName).isSome
      · simp [hrow, hcol, hcell] at hfill
      · simp only [hrow, if_true, hcol, hcell, Bool.false_eq_true, if_false] at hfill
        obtain rfl := Option.some.inj hfill
        rfl
    · simp only [hrow, if_true, hcol, if_false] at hfill
      obtain rfl := Option.some.inj hfill
      rfl
  · simp only [hrow, if_false] at hfill
    obtain rfl := Option.some.inj hfill
    rfl

theorem handleAddData_WF {sheet : List Table} (titleName columnName rowName : Name)
    (value : String) (hwf : ∀ tab ∈ sheet, TableWF tab) :
    ∀ tab ∈ handleAddData sheet titleName columnName rowName value, TableWF tab := by
  rcases sheet_eq_nil_or_concat sheet with rfl | ⟨pre, last, rfl⟩
  · rw [handleAddData_nil]
    intro tab htab
    obtain rfl := List.mem_singleton.mp htab
    exact newTable_WF _ _ _ _
  · rw [handleAddData_concat]
    by_cases heq : titleName = last.title
    · rw [if_pos heq]
      cases hfill : fillTable last columnName rowName value with
      | some t =>
        intro tab htab
        rcases List.mem_append.mp htab with h | h
        · exact hwf tab (List.mem_append_left _ h)
        · obtain rfl := List.mem_singleton.mp h
          exact fillTable_WF (hwf last (by simp)) hfill
      | none =>
        intro tab htab
        rcases List.mem_append.mp htab with h | h
        · exact hwf tab h
        · obtain rfl := List.mem_singleton.mp h
          exact newTable_WF _ _ _ _
    · rw [if_neg heq]
      intro tab htab
      rcases List.mem_append.mp htab with h | h
      · exact hwf tab h
      · obtain rfl := List.mem_singleton.mp h
        exact newTable_WF _ _ _ _

/-- Well-formedness of the whole collector: every table of the default
group and of every named group satisfies `TableWF`. -/
def CollectorWF (c : Collector) : Prop :=
  (∀ tab ∈ c.defaultSheet, TableWF tab) ∧
  (∀ p ∈ c.sheetDict, ∀ tab ∈ p.2, TableWF tab)

theorem partitionStep_dict_mem {acc : Partition} {x : Name × String}
    {p : Name × List Table} (hp : p ∈ (partitionStep acc x).dict) :
    p ∈ acc.dict ∨ p.2 = [] := by
  unfold partitionStep at hp
  by_cases hs : x.2 = "sheet"
  · rw [if_pos hs] at hp
    dsimp only at hp
    by_cases hf : (alFind acc.dict x.1).isSome
    · rw [if_pos hf] at hp
      exact Or.inl hp
    · rw [if_neg hf] at hp
      rcases mem_alSet hp with h' | h'
      · exact Or.inr (by rw [h'])
      · exact Or.inl h'
  · rw [if_neg hs] at hp
    by_cases hr : x.2 = "row"
    · rw [if_pos hr] at hp
      exact Or.inl hp
    · rw [if_neg hr] at hp
      by_cases hc : x.2 = "col"
      · rw [if_pos hc] at hp
        exact Or.inl hp
      · rw [if_neg hc] at hp
        exact Or.inl hp

theorem partitionRoles_dict_mem (l : List (Name × String)) (acc : Partition)
    {p : Name × List Table} (hp : p ∈ (partitionRoles l acc).dict) :
    p ∈ acc.dict ∨ p.2 = [] := by
  induction l generalizing acc with
  | nil => exact Or.inl hp
  | cons x rest ih =>
    rw [partitionRoles, List.foldl_cons] at hp
    rcases ih (partitionStep acc x) hp with h | h
    · exact partitionStep_dict_mem h
    · exact Or.inr h

/-- C9: the table invariant is established at collector creation and
preserved by every successful `addData` call: in every table of every
output group, every outer key of the cell map is a listed row header and
every inner key is a listed column header. -/
theorem c9_addData_table_invariant (roles : List String) (c c' : Collector)
    (hier : List Name) (key value : String)
    (hwf : CollectorWF c) (hadd : addData roles c hier key value = some c') :
    CollectorWF initCollector ∧
    CollectorWF c' ∧
    (∀ tab ∈ c'.defaultSheet,
      ∀ p ∈ tab.data, p.1 ∈ tab.rows ∧ ∀ q ∈ p.2, q.1 ∈ tab.cols) ∧
    (∀ g ∈ c'.sheetDict, ∀ tab ∈ g.2,
      ∀ p ∈ tab.data, p.1 ∈ tab.rows ∧ ∀ q ∈ p.2, q.1 ∈ tab.cols) := by
  have hwf' : CollectorWF c' := by
    simp only [addData] at hadd
    rw [Option.map_eq_some'] at hadd
    obtain ⟨titleName, ht, hadd⟩ := hadd
    have hdict : ∀ p ∈ (partitionFor roles c hier key).dict, ∀ tab ∈ p.2, TableWF tab := by
      intro p hp
      rcases partitionRoles_dict_mem _ _ hp with h | h
      · exact hwf.2 p h
      · rw [h]; intro tab htab; simp at htab
    cases haddr : (partitionFor roles c hier key).addr with
    | default =>
      rw [haddr] at hadd
      subst hadd
      refine ⟨?_, hdict⟩
      exact handleAddData_WF _ _ _ _ hwf.1
    | key h =>
      rw [haddr] at hadd
      subst hadd
      refine ⟨hwf.1, ?_⟩
      intro p hp
      rcases mem_alSet hp with h' | h'
      · subst h'
        refine handleAddData_WF _ _ _ _ ?_
        cases hf : alFind (partitionFor roles c hier key).dict h with
        | none => simp
        | some g => simpa using hdict _ (alFind_mem hf)
      · exact hdict p h'
  refine ⟨⟨by simp [initCollector], by simp [initCollector]⟩, hwf', ?_, ?_⟩
  · intro tab htab
    exact (hwf'.1 tab htab).1
  · intro g hg tab htab
    exact (hwf'.2 g hg tab htab).1

/-- Witness for C9: one concrete `addData` call on the fresh collector,
with a `row`-role and a `col`-role dimension. -/
theorem c9_addData_table_invariant_witness :
    CollectorWF initCollector ∧
    ∃ c', addData ["row", "col"] initCollector [some "R", some "C"] "k" "v" = some c' ∧
      ∀ tab ∈ c'.defaultSheet,
        ∀ p ∈ tab.data, p.1 ∈ tab.rows ∧ ∀ q ∈ p.2, q.1 ∈ tab.cols := by
  have hadd : addData ["row", "col"] initCollector [some "R", some "C"] "k" "v" =
      some { sheetDict := [],
             defaultSheet := [newTable (some "") (some "C") (some "R") "v"] } := by
    rfl
  have h := c9_addData_table_invariant ["row", "col"] initCollector
    { sheetDict := [], defaultSheet := [newTable (some "") (some "C") (some "R") "v"] }
    [some "R", some "C"] "k" "v"
    ⟨by simp [initCollector], by simp [initCollector]⟩ hadd
  exact ⟨h.1, _, hadd, h.2.2.1⟩

theorem cellAt_newTable (titleName columnName rowName : Name) (value : String)
    (r' c' : Name) :
    cellAt (newTable titleName columnName rowName value) r' c' =
      if rowName = r' ∧ columnName = c' then some value else none := by
  by_cases hr : rowName = r'
  · subst hr
    by_cases hc : columnName = c'
    · subst hc
      simp [cellAt, newTable, alFind]
    · simp [cellAt, newTable, alFind, hc]
  · simp [cellAt, newTable, alFind, hr]

theorem cellAt_none_of_row_not_mem {t : Table} (hwf : TableWF t) {rowName : Name}
    (hrow : rowName ∉ t.rows) : alFind t.data rowName = none := by
  cases hm : alFind t.data rowName with
  | none => rfl
  | some m => exact absurd ((hwf.1 _ (alFind_mem hm)).1) hrow

theorem cellAt_none_of_col_not_mem {t : Table} (hwf : TableWF t) {rowName columnName : Name}
    (hcol : columnName ∉ t.cols) : cellAt t rowName columnName = none := by
  unfold cellAt
  cases hm : alFind t.data rowName with
  | none => rfl
  | some m =>
    simp only [Option.some_bind]
    cases hc : alFind m columnName with
    | none => rfl
    | some v => exact absurd ((hwf.1 _ (alFind_mem hm)).2 _ (alFind_mem hc)) hcol

theorem fillTable_cellAt {t t2 : Table} {columnName rowName : Name} {value : String}
    (hwf : TableWF t) (hfill : fillTable t columnName rowName value = some t2) :
    cellAt t2 rowName columnName = some value ∧
    cellAt t rowName columnName = none ∧
    (∀ r' c', ¬(rowName = r' ∧ columnName = c') → cellAt t2 r' c' = cellAt t r' c') := by
  unfold fillTable at hfill
  by_cases hrow : rowName ∈ t.rows
  · obtain ⟨m, hm⟩ := Option.isSome_iff_exists.mp (hwf.2 rowName hrow)
    have hdata : ∀ u : Table, u.data = setCell t.data rowName columnName value →
        cellAt u rowName columnName = some value ∧
        (∀ r' c', ¬(rowName = r' ∧ columnName = c') → cellAt u r' c' = cellAt t r' c') := by
      intro u hu
      have hdata' : u.data = alSet t.data rowName (alSet m columnName value) := by
        rw [hu]; simp [setCell, hm]
      constructor
      · unfold cellAt
        rw [hdata', alFind_alSet_same]
        simp [alFind_alSet_same]
      · intro r' c' hne
        unfold cellAt
        rw [hdata']
        by_cases hr : r' = rowName
        · subst hr
          rw [alFind_alSet_same, hm]
          simp only [Option.some_bind]
          have hc : c' ≠ columnName := by
            intro hc
            exact hne ⟨rfl, hc.symm⟩
          rw [alFind_alSet_other _ _ _ _ hc]
        · rw [alFind_alSet_other _ _ _ _ hr]
    rw [if_pos hrow] at hfill
    by_cases hcol : columnName ∈ t.cols
    · rw [if_pos hcol] at hfill
      by_cases hcell : (cellAt t rowName columnName).isSome
      · simp [hcell] at hfill
      · simp only [hcell, Bool.false_eq_true, if_false] at hfill
        obtain rfl := Option.some.inj hfill
        have hnone : cellAt t rowName columnName = none :=
          Option.not_isSome_iff_eq_none.mp (by simpa using hcell)
        obtain ⟨h1, h2⟩ := hdata (fillOldCell t columnName rowName value) rfl
        exact ⟨h1, hnone, h2⟩
    · rw [if_neg hcol] at hfill
      obtain rfl := Option.some.inj hfill
      obtain ⟨h1, h2⟩ := hdata (fillNewCol t columnName rowName value) rfl
      exact ⟨h1, cellAt_none_of_col_not_mem hwf hcol, h2⟩
  · rw [if_neg hrow] at hfill
    obtain rfl := Option.some.inj hfill
    have hnone : alFind t.data rowName = none := cellAt_none_of_row_not_mem hwf hrow
    refine ⟨?_, ?_, ?_⟩
    · unfold cellAt
      simp only [fillNewRow]
      rw [alFind_alSet_same]
      simp [alFind]
    · unfold cellAt
      rw [hnone]
      rfl
    · intro r' c' hne
      unfold cellAt
      simp only [fillNewRow]
      by_cases hr : r' = rowName
      · subst hr
        rw [alFind_alSet_same, hnone]
        have hc : c' ≠ columnName := by
          intro hc
          exact hne ⟨rfl, hc.symm⟩
        simp [alFind, Ne.symm hc]
      · rw [alFind_alSet_other _ _ _ _ hr]

theorem cellValues_append (l1 l2 : List Table) (r c : Name) :
    cellValues (l1 ++ l2) r c = cellValues l1 r c ++ cellValues l2 r c := by
  simp [cellValues, List.filterMap_append]

theorem cellValues_singleton (t : Table) (r c : Name) :
    cellValues [t] r c = (cellAt t r c).toList := by
  cases h : cellAt t r c <;> simp [cellValues, List.filterMap, h]

theorem handleAddData_cellValues (sheet : List Table) (titleName columnName rowName : Name)
    (value : String) (hwf : ∀ tab ∈ sheet, TableWF tab) (r' c' : Name) :
    cellValues (handleAddData sheet titleName columnName rowName value) r' c' =
      cellValues sheet r' c' ++
        (if rowName = r' ∧ columnName = c' then [value] else []) := by
  have hnew : cellValues [newTable titleName columnName rowName value] r' c' =
      (if rowName = r' ∧ columnName = c' then [value] else []) := by
    rw [cellValues_singleton, cellAt_newTable]
    by_cases h : rowName = r' ∧ columnName = c' <;> simp [h]
  rcases sheet_eq_nil_or_concat sheet with rfl | ⟨pre, last, rfl⟩
  · rw [handleAddData_nil, hnew]
    simp [cellValues]
  · have hwlast : TableWF last := hwf last (by simp)
    rw [handleAddData_concat]
    by_cases heq : titleName = last.title
    · rw [if_pos heq]
      cases hfill : fillTable last columnName rowName value with
      | some t2 =>
        obtain ⟨h1, h2, h3⟩ := fillTable_cellAt hwlast hfill
        rw [cellValues_append, cellValues_append, cellValues_singleton,
          cellValues_singleton, List.append_assoc]
        congr 1
        by_cases h : rowName = r' ∧ columnName = c'
        · obtain ⟨rfl, rfl⟩ := h
          rw [h1, h2]
          simp
        · rw [h3 r' c' h]
          simp [h]
      | none =>
        rw [cellValues_append, hnew, cellValues_append, List.append_assoc]
    · rw [if_neg heq, cellValues_append, hnew, cellValues_append, List.append_assoc]

theorem foldCalls_cellValues (titleName : Name) (calls : List Call) (sheet : List Table)
    (hwf : ∀ tab ∈ sheet, TableWF tab) (r c : Name) :
    cellValues (calls.foldl (fun sh k => handleAddData sh titleName k.col k.row k.val) sheet) r c =
      cellValues sheet r c ++
        (calls.filter (fun k => k.row = r ∧ k.col = c)).map Call.val := by
  induction calls generalizing sheet with
  | nil => simp
  | cons k rest ih =>
    rw [List.foldl_cons, ih _ (handleAddData_WF _ _ _ _ hwf),
      handleAddData_cellValues _ _ _ _ _ hwf r c]
    by_cases hk : k.row = r ∧ k.col = c
    · simp [List.filter_cons, hk]
    · simp [List.filter_cons, hk]

theorem runCalls_WF (titleName : Name) (calls : List Call) :
    ∀ tab ∈ runCalls titleName calls, TableWF tab := by
  unfold runCalls
  generalize hz : ([] : List Table) = sheet
  have hwf : ∀ tab ∈ sheet, TableWF tab := by rw [← hz]; simp
  clear hz
  induction calls generalizing sheet with
  | nil => exact hwf
  | cons k rest ih => exact ih _ (handleAddData_WF _ _ _ _ hwf)

theorem runCalls_cellValues (titleName : Name) (calls : List Call) (r c : Name) :
    cellValues (runCalls titleName calls) r c =
      (calls.filter (fun k => k.row = r ∧ k.col = c)).map Call.val := by
  unfold runCalls
  rw [foldCalls_cellValues _ _ _ (by simp) r c]
  simp [cellValues]

theorem handleAddData_titles {sheet : List Table} {titleName : Name}
    (columnName rowName : Name) (value : String)
    (hall : ∀ tab ∈ sheet, tab.title = titleName) :
    ∀ tab ∈ handleAddData sheet titleName columnName rowName value, tab.title = titleName := by
  rcases sheet_eq_nil_or_concat sheet with rfl | ⟨pre, last, rfl⟩
  · rw [handleAddData_nil]
    intro tab htab
    obtain rfl := List.mem_singleton.mp htab
    rfl
  · rw [handleAddData_concat]
    by_cases heq : titleName = last.title
    · rw [if_pos heq]
      cases hfill : fillTable last columnName rowName value with
      | some t2 =>
        intro tab htab
        rcases List.mem_append.mp htab with h | h
        · exact hall tab (List.mem_append_left _ h)
        · obtain rfl := List.mem_singleton.mp h
          rw [fillTable_title hfill]
          exact hall last (by simp)
      | none =>
        intro tab htab
        rcases List.mem_append.mp htab with h | h
        · exact hall tab h
        · obtain rfl := List.mem_singleton.mp h
          rfl
    · rw [if_neg heq]
      intro tab htab
      rcases List.mem_append.mp htab with h | h
      · exact hall tab h
      · obtain rfl := List.mem_singleton.mp h
        rfl

theorem runCalls_titles (titleName : Name) (calls : List Call) :
    ∀ tab ∈ runCalls titleName calls, tab.title = titleName := by
  unfold runCalls
  generalize hz : ([] : List Table) = sheet
  have hall : ∀ tab ∈ sheet, tab.title = titleName := by rw [← hz]; simp
  clear hz
  induction calls generalizing sheet with
  | nil => exact hall
  | cons k rest ih => exact ih _ (handleAddData_titles _ _ _ hall)

theorem filterMap_eq_cons_decomp {α β : Type} {f : α → Option β} {l : List α} {a : β}
    {res : List β} (h : l.filterMap f = a :: res) :
    ∃ l1 x l2, l = l1 ++ x :: l2 ∧ (∀ z ∈ l1, f z = none) ∧ f x = some a ∧
      l2.filterMap f = res := by
  induction l with
  | nil => simp at h
  | cons z rest ih =>
    cases hz : f z with
    | some b =>
      rw [List.filterMap_cons_some hz] at h
      obtain ⟨rfl, hres⟩ := List.cons.inj h
      exact ⟨[], z, rest, by simp, by simp, hz, hres⟩
    | none =>
      rw [List.filterMap_cons_none hz] at h
      obtain ⟨l1, x, l2, rfl, h1, h2, h3⟩ := ih h
      refine ⟨z :: l1, x, l2, rfl, ?_, h2, h3⟩
      intro w hw
      rcases List.mem_cons.mp hw with rfl | hw'
      · exact hz
      · exact h1 w hw'

theorem filterMap_eq_pair_decomp {α β : Type} {f : α → Option β} {l : List α} {a b : β}
    (h : l.filterMap f = [a, b]) :
    ∃ l1 x l2 y l3, l = l1 ++ x :: (l2 ++ y :: l3) ∧ f x = some a ∧ f y = some b ∧
      (∀ z ∈ l1, f z = none) ∧ (∀ z ∈ l2, f z = none) ∧ (∀ z ∈ l3, f z = none) := by
  obtain ⟨l1, x, l2', rfl, h1, h2, h3⟩ := filterMap_eq_cons_decomp h
  obtain ⟨l2, y, l3, rfl, h4, h5, h6⟩ := filterMap_eq_cons_decomp h3
  exact ⟨l1, x, l2, y, l3, rfl, h2, h5, h1, h4, by
    intro z hz
    exact List.filterMap_eq_nil_iff.mp h6 z hz⟩

/-- C4: under an unchanged title, a (row, col) pair supplied exactly twice
ends up in two separate tables sharing that title, the earlier table holding
the first occurrence and the later one the second, and no other table of
the group holds that cell. -/
theorem c4_repeated_pair_two_tables (titleName : Name) (calls : List Call) (r c : Name)
    (v1 v2 : String)
    (hocc : (calls.filter (fun k => k.row = r ∧ k.col = c)).map Call.val = [v1, v2]) :
    (∀ tab ∈ runCalls titleName calls, tab.title = titleName) ∧
    ∃ pre T1 mid T2 suf,
      runCalls titleName calls = pre ++ T1 :: (mid ++ T2 :: suf) ∧
      cellAt T1 r c = some v1 ∧ cellAt T2 r c = some v2 ∧
      (∀ tab ∈ pre, cellAt tab r c = none) ∧
      (∀ tab ∈ mid, cellAt tab r c = none) ∧
      (∀ tab ∈ suf, cellAt tab r c = none) := by
  refine ⟨runCalls_titles _ _, ?_⟩
  have hcv : (runCalls titleName calls).filterMap (fun t => cellAt t r c) = [v1, v2] := by
    have := runCalls_cellValues titleName calls r c
    rw [hocc] at this
    exact this
  obtain ⟨l1, x, l2, y, l3, heq, h1, h2, h3, h4, h5⟩ := filterMap_eq_pair_decomp hcv
  exact ⟨l1, x, l2, y, l3, heq, h1, h2, h3, h4, h5⟩

/-- Witness for C4: two identical (row, col) pairs under one title yield two
one-cell tables in call order. -/
theorem c4_repeated_pair_two_tables_witness :
    (∀ tab ∈ runCalls (some "T")
        [⟨some "r", some "c", "a"⟩, ⟨some "r", some "c", "b"⟩], tab.title = some "T") ∧
    ∃ pre T1 mid T2 suf,
      runCalls (some "T") [⟨some "r", some "c", "a"⟩, ⟨some "r", some "c", "b"⟩] =
        pre ++ T1 :: (mid ++ T2 :: suf) ∧
      cellAt T1 (some "r") (some "c") = some "a" ∧
      cellAt T2 (some "r") (some "c") = some "b" ∧
      (∀ tab ∈ pre, cellAt tab (some "r") (some "c") = none) ∧
      (∀ tab ∈ mid, cellAt tab (some "r") (some "c") = none) ∧
      (∀ tab ∈ suf, cellAt tab (some "r") (some "c") = none) :=
  c4_repeated_pair_two_tables (some "T")
    [⟨some "r", some "c", "a"⟩, ⟨some "r", some "c", "b"⟩]
    (some "r") (some "c") "a" "b" (by decide)

theorem mem_firstOccursAux (acc l : List Name) (x : Name) :
    x ∈ firstOccursAux acc l ↔ x ∈ acc ∨ x ∈ l := by
  induction l generalizing acc with
  | nil => simp [firstOccursAux]
  | cons y rest ih =>
    unfold firstOccursAux
    by_cases hy : y ∈ acc
    · rw [if_pos hy, ih]
      simp only [List.mem_cons]
      constructor
      · rintro (h | h)
        · exact Or.inl h
        · exact Or.inr (Or.inr h)
      · rintro (h | rfl | h)
        · exact Or.inl h
        · exact Or.inl hy
        · exact Or.inr h
    · rw [if_neg hy, ih]
      simp only [List.mem_append, List.mem_singleton, List.mem_cons, List.not_mem_nil,
        or_false]
      tauto

theorem mem_firstOccurs (l : List Name) (x : Name) :
    x ∈ firstOccurs l ↔ x ∈ l := by
  unfold firstOccurs
  rw [mem_firstOccursAux]
  simp

theorem firstOccursAux_snoc (acc l : List Name) (x : Name) :
    firstOccursAux acc (l ++ [x]) =
      (if x ∈ firstOccursAux acc l then firstOccursAux acc l
       else firstOccursAux acc l ++ [x]) := by
  induction l generalizing acc with
  | nil => simp [firstOccursAux]
  | cons y rest ih =>
    rw [List.cons_append]
    unfold firstOccursAux
    exact ih _

theorem firstOccurs_snoc (l : List Name) (x : Name) :
    firstOccurs (l ++ [x]) =
      (if x ∈ l then firstOccurs l else firstOccurs l ++ [x]) := by
  unfold firstOccurs
  rw [firstOccursAux_snoc]
  by_cases h : x ∈ l
  · rw [if_pos h, if_pos (by rw [mem_firstOccursAux]; simp [h])]
  · rw [if_neg h, if_neg (by rw [mem_firstOccursAux]; simp [h])]

theorem fillTable_rows_cols {t t2 : Table} {columnName rowName : Name} {value : String}
    (hfill : fillTable t columnName rowName value = some t2) :
    t2.rows = (if rowName ∈ t.rows then t.rows else t.rows ++ [rowName]) ∧
    t2.cols = (if columnName ∈ t.cols then t.cols else t.cols ++ [columnName]) := by
  unfold fillTable at hfill
  by_cases hrow : rowName ∈ t.rows
  · rw [if_pos hrow] at hfill
    by_cases hcol : columnName ∈ t.cols
    · rw [if_pos hcol] at hfill
      by_cases hcell : (cellAt t rowName columnName).isSome
      · simp [hcell] at hfill
      · simp only [hcell, Bool.false_eq_true, if_false] at hfill
        obtain rfl := Option.some.inj hfill
        simp [fillOldCell, hrow, hcol]
    · rw [if_neg hcol] at hfill
      obtain rfl := Option.some.inj hfill
      simp [fillNewCol, hrow, hcol]
  · rw [if_neg hrow] at hfill
    obtain rfl := Option.some.inj hfill
    simp [fillNewRow, hrow]

/-- The invariant maintained along a distinct-pair call sequence under one
title: the group holds a single table whose headers are the first-occurrence
orders of the processed row and column names, and whose populated cells are
exactly the processed (row, col) pairs. -/
def singleTableInv (titleName : Name) (processed : List Call) (sheet : List Table) : Prop :=
  ∃ tab, sheet = [tab] ∧ tab.title = titleName ∧
    tab.rows = firstOccurs (processed.map Call.row) ∧
    tab.cols = firstOccurs (processed.map Call.col) ∧
    TableWF tab ∧
    ∀ r c, (cellAt tab r c).isSome ↔ (r, c) ∈ processed.map (fun k => (k.row, k.col))

theorem singleTableInv_base (titleName : Name) (k : Call) :
    singleTableInv titleName [k] (handleAddData [] titleName k.col k.row k.val) := by
  rw [handleAddData_nil]
  refine ⟨_, rfl, rfl, ?_, ?_, newTable_WF _ _ _ _, ?_⟩
  · simp [newTable, firstOccurs, firstOccursAux]
  · simp [newTable, firstOccurs, firstOccursAux]
  · intro r c
    rw [cellAt_newTable]
    by_cases h : k.row = r ∧ k.col = c
    · obtain ⟨rfl, rfl⟩ := h
      simp
    · rw [if_neg h]
      simp only [Option.isSome_none, Bool.false_eq_true, false_iff]
      intro hm
      simp only [List.map_cons, List.map_nil, List.mem_singleton, Prod.mk.injEq] at hm
      exact h ⟨hm.1.symm, hm.2.symm⟩

theorem singleTableInv_step {titleName : Name} {processed : List Call} {sheet : List Table}
    (hinv : singleTableInv titleName processed sheet) (k : Call)
    (hnew : (k.row, k.col) ∉ processed.map (fun k => (k.row, k.col))) :
    singleTableInv titleName (processed ++ [k])
      (handleAddData sheet titleName k.col k.row k.val) := by
  obtain ⟨tab, rfl, htitle, hrows, hcols, hwf, hcells⟩ := hinv
  have hfillne : fillTable tab k.col k.row k.val ≠ none := by
    unfold fillTable
    by_cases hrow : k.row ∈ tab.rows
    · by_cases hcol : k.col ∈ tab.cols
      · have hcell : ¬((cellAt tab k.row k.col).isSome = true) := by
          rw [hcells]
          exact hnew
        simp [hrow, hcol, hcell]
      · simp [hrow, hcol]
    · simp [hrow]
  obtain ⟨t2, hfill⟩ := Option.ne_none_iff_exists'.mp hfillne
  have hres : handleAddData [tab] titleName k.col k.row k.val = [t2] := by
    have hcc := handleAddData_concat [] tab titleName k.col k.row k.val
    simp only [List.nil_append] at hcc
    rw [hcc, if_pos htitle.symm, hfill]
  obtain ⟨hr2, hc2⟩ := fillTable_rows_cols hfill
  obtain ⟨hck, hcold, hcoth⟩ := fillTable_cellAt hwf hfill
  rw [hres]
  refine ⟨t2, rfl, (fillTable_title hfill).trans htitle, ?_, ?_, fillTable_WF hwf hfill, ?_⟩
  · rw [hr2, List.map_append, List.map_cons, List.map_nil, firstOccurs_snoc, ← hrows]
    by_cases h : k.row ∈ tab.rows
    · rw [if_pos h, if_pos (by rw [← mem_firstOccurs, ← hrows]; exact h)]
    · rw [if_neg h, if_neg (by rw [← mem_firstOccurs, ← hrows]; exact h)]
  · rw [hc2, List.map_append, List.map_cons, List.map_nil, firstOccurs_snoc, ← hcols]
    by_cases h : k.col ∈ tab.cols
    · rw [if_pos h, if_pos (by rw [← mem_firstOccurs, ← hcols]; exact h)]
    · rw [if_neg h, if_neg (by rw [← mem_firstOccurs, ← hcols]; exact h)]
  · intro r c
    rw [List.map_append, List.map_cons, List.map_nil, List.mem_append, List.mem_singleton]
    by_cases h : k.row = r ∧ k.col = c
    · obtain ⟨rfl, rfl⟩ := h
      rw [hck]
      simp
    · rw [hcoth r c h, hcells r c]
      constructor
      · exact fun hm => Or.inl hm
      · rintro (hm | hm)
        · exact hm
        · exact absurd ⟨(Prod.mk.injEq _ _ _ _ ▸ hm.symm).1, (Prod.mk.injEq _ _ _ _ ▸ hm.symm).2⟩ h

theorem singleTableInv_run (titleName : Name) (calls : List Call) :
    ∀ (processed : List Call) (sheet : List Table),
      singleTableInv titleName processed sheet →
      ((processed ++ calls).map (fun k => (k.row, k.col))).Nodup →
      singleTableInv titleName (processed ++ calls)
        (calls.foldl (fun sh k => handleAddData sh titleName k.col k.row k.val) sheet) := by
  induction calls with
  | nil =>
    intro processed sheet hinv _
    simpa using hinv
  | cons k rest ih =>
    intro processed sheet hinv hnodup
    have hknew : (k.row, k.col) ∉ processed.map (fun k => (k.row, k.col)) := by
      rw [List.map_append] at hnodup
      have hdisj := (List.nodup_append.mp hnodup).2.2
      intro hmem
      exact hdisj hmem (by simp)
    rw [List.foldl_cons]
    have hstep := singleTableInv_step hinv k hknew
    have hrun := ih (processed ++ [k]) _ hstep
      (by rw [List.append_assoc]; simpa using hnodup)
    rw [List.append_assoc] at hrun
    simpa using hrun

/-- C5: under an unchanged title, a nonempty call sequence whose (row, col)
pairs are pairwise distinct produces exactly one table, whose row-header and
column-header orders are the first-occurrence orders of the row and column
names of the calls. -/
theorem c5_distinct_pairs_single_table (titleName : Name) (calls : List Call)
    (hne : calls ≠ [])
    (hnodup : (calls.map (fun k => (k.row, k.col))).Nodup) :
    ∃ tab, runCalls titleName calls = [tab] ∧
      tab.title = titleName ∧
      tab.rows = firstOccurs (calls.map Call.row) ∧
      tab.cols = firstOccurs (calls.map Call.col) := by
  obtain ⟨k, rest, rfl⟩ := List.exists_cons_of_ne_nil hne
  unfold runCalls
  rw [List.foldl_cons]
  have hbase := singleTableInv_base titleName k
  have hrun := singleTableInv_run titleName rest [k] _ hbase (by simpa using hnodup)
  obtain ⟨tab, heq, h1, h2, h3, _, _⟩ := hrun
  exact ⟨tab, heq, h1, by simpa using h2, by simpa using h3⟩

/-- Witness for C5: three distinct (row, col) pairs under one title produce
a single table with first-occurrence header orders. -/
theorem c5_distinct_pairs_single_table_witness :
    ∃ tab,
      runCalls (some "T")
        [⟨some "r1", some "c1", "a"⟩, ⟨some "r1", some "c2", "b"⟩,
         ⟨some "r2", some "c1", "d"⟩] = [tab] ∧
      tab.title = some "T" ∧
      tab.rows = firstOccurs [some "r1", some "r1", some "r2"] ∧
      tab.cols = firstOccurs [some "c1", some "c2", some "c1"] :=
  c5_distinct_pairs_single_table (some "T")
    [⟨some "r1", some "c1", "a"⟩, ⟨some "r1", some "c2", "b"⟩,
     ⟨some "r2", some "c1", "d"⟩]
    (by decide) (by decide)

/-- The spec-side description of the integer case of the coercion: the
string consists solely of an optional leading minus sign followed by
digits. -/
def intShape (s : String) : Prop :=
  ∃ ds : List Char, ds ≠ [] ∧ (∀ ch ∈ ds, ch.isDigit) ∧
    (s.toList = ds ∨ s.toList = '-' :: ds)

theorem isPyIntString_iff (s : String) : isPyIntString s = true ↔ intShape s := by
  unfold isPyIntString intShape
  cases hl : s.toList with
  | nil =>
    show (false = true) ↔ _
    simp only [Bool.false_eq_true, false_iff]
    rintro ⟨ds, hne, _, h | h⟩
    · exact hne h.symm
    · exact List.noConfusion h
  | cons c rest =>
    show (if c = '-' then !rest.isEmpty && rest.all Char.isDigit
          else (c :: rest).all Char.isDigit) = true ↔ _
    by_cases hc : c = '-'
    · subst hc
      rw [if_pos rfl]
      constructor
      · intro h
        rw [Bool.and_eq_true] at h
        obtain ⟨h1, h2⟩ := h
        refine ⟨rest, ?_, ?_, Or.inr rfl⟩
        · intro hr
          subst hr
          simp at h1
        · intro ch hch
          exact List.all_eq_true.mp h2 ch hch
      · rintro ⟨ds, hne, hdig, h | h⟩
        · exact absurd (hdig '-' (h ▸ List.mem_cons_self _ _)) (by decide)
        · obtain ⟨-, rfl⟩ := List.cons.inj h
          rw [Bool.and_eq_true]
          refine ⟨?_, ?_⟩
          · cases rest with
            | nil => exact absurd rfl hne
            | cons d ds' => simp
          · exact List.all_eq_true.mpr (fun ch hch => hdig ch hch)
    · rw [if_neg hc]
      constructor
      · intro h
        exact ⟨c :: rest, List.cons_ne_nil _ _,
          fun ch hch => List.all_eq_true.mp h ch hch, Or.inl rfl⟩
      · rintro ⟨ds, hne, hdig, h | h⟩
        · exact List.all_eq_true.mpr (fun ch hch => hdig ch (h ▸ hch))
        · exact absurd (List.cons.inj h).1 hc

/-- C6 (amended): the cell coercion returns an integer exactly when the
whitespace-stripped string is an optional leading minus sign followed by
digits; otherwise it returns a floating-point number when the stripped
string is accepted by `float()`; otherwise it returns the stripped string.
The concrete examples of the spec hold. -/
theorem c6_cell_coercion (s : String) :
    ((∃ n : Int, processCellData s = CellValue.intVal n) ↔ intShape (pyStrip s)) ∧
    (¬intShape (pyStrip s) → pyFloatParses (pyStrip s) = true →
      processCellData s = CellValue.floatVal (pyStrip s)) ∧
    (¬intShape (pyStrip s) → pyFloatParses (pyStrip s) = false →
      processCellData s = CellValue.strVal (pyStrip s)) ∧
    processCellData "42" = CellValue.intVal 42 ∧
    processCellData "-7" = CellValue.intVal (-7) ∧
    processCellData "3.14" = CellValue.floatVal "3.14" ∧
    processCellData "abc" = CellValue.strVal "abc" := by
  refine ⟨?_, ?_, ?_, by decide, by decide, by decide, by decide⟩
  · unfold processCellData
    by_cases hint : isPyIntString (pyStrip s) = true
    · rw [if_pos hint]
      exact ⟨fun _ => (isPyIntString_iff _).mp hint, fun _ => ⟨_, rfl⟩⟩
    · rw [if_neg hint]
      constructor
      · intro ⟨n, hn⟩
        by_cases hf : pyFloatParses (pyStrip s) = true
        · rw [if_pos hf] at hn
          exact CellValue.noConfusion hn
        · rw [if_neg hf] at hn
          exact CellValue.noConfusion hn
      · intro hshape
        exact absurd ((isPyIntString_iff _).mpr hshape) hint
  · intro hshape hf
    unfold processCellData
    rw [if_neg (fun h => hshape ((isPyIntString_iff _).mp h)), if_pos hf]
  · intro hshape hf
    unfold processCellData
    rw [if_neg (fun h => hshape ((isPyIntString_iff _).mp h)),
      if_neg (by rw [hf]; exact Bool.false_ne_true)]

/-- Witness for C6: the implications of the amended claim at the concrete
input `" x "`, whose stripped form is neither integer-shaped nor
float-parseable. -/
theorem c6_cell_coercion_witness :
    processCellData " x " = CellValue.strVal "x" := by
  refine (c6_cell_coercion " x ").2.2.1 ?_ (by decide)
  intro hshape
  exact absurd ((isPyIntString_iff _).mpr hshape) (by decide)

/-- C6 counterexample: the claim says a non-numeric string is returned
unchanged, but the source returns the whitespace-stripped string: on
`" abc "` the coercion yields `"abc"`, not `" abc "`. -/
theorem c6_cell_coercion_counterexample :
    processCellData " abc " = CellValue.strVal "abc" ∧
    processCellData " abc " ≠ CellValue.strVal " abc " := by
  exact ⟨by decide, by decide⟩

theorem matchHier_some_iff (es : List HierExtractor) (s : String) (i : Nat) (v : String) :
    matchHier es s = some (i, v) ↔
      (∃ e, es[i]? = some e ∧ extractorMatch e s = some v) ∧
      ∀ e' ∈ es.take i, extractorMatch e' s = none := by
  induction es generalizing i with
  | nil => simp [matchHier]
  | cons e rest ih =>
    unfold matchHier
    cases he : extractorMatch e s with
    | some w =>
      constructor
      · intro h
        obtain ⟨h1, h2⟩ := Prod.mk.inj (Option.some.inj h)
        subst h1
        subst h2
        exact ⟨⟨e, by simp, he⟩, by simp⟩
      · rintro ⟨⟨e', he', hm⟩, hall⟩
        cases i with
        | zero =>
          rw [List.getElem?_cons_zero] at he'
          obtain rfl := Option.some.inj he'
          rw [he] at hm
          obtain rfl := Option.some.inj hm
          rfl
        | succ j =>
          exfalso
          have hmem : e ∈ (e :: rest).take (j + 1) := by
            rw [List.take_succ_cons]
            exact List.mem_cons_self _ _
          exact Option.noConfusion (he ▸ hall e hmem)
    | none =>
      cases i with
      | zero =>
        constructor
        · intro h
          exfalso
          cases hm : matchHier rest s with
          | none =>
            rw [hm] at h
            exact Option.noConfusion h
          | some p =>
            rw [hm] at h
            simp only [Option.map_some', Option.some.injEq] at h
            obtain ⟨h1, -⟩ := Prod.mk.inj h
            exact Nat.succ_ne_zero _ h1
        · rintro ⟨⟨e', he', hm⟩, -⟩
          rw [List.getElem?_cons_zero] at he'
          obtain rfl := Option.some.inj he'
          rw [he] at hm
          exact Option.noConfusion hm
      | succ j =>
        have hmap : ((matchHier rest s).map (fun p => (p.1 + 1, p.2)) = some (j + 1, v)) ↔
            matchHier rest s = some (j, v) := by
          cases hm : matchHier rest s with
          | none => simp
          | some p =>
            obtain ⟨a, b⟩ := p
            simp only [Option.map_some', Option.some.injEq, Prod.mk.injEq]
            constructor
            · rintro ⟨h1, rfl⟩
              exact ⟨Nat.succ_injective h1, rfl⟩
            · rintro ⟨rfl, rfl⟩
              exact ⟨rfl, rfl⟩
        rw [hmap, ih j, List.getElem?_cons_succ, List.take_succ_cons,
          List.forall_mem_cons]
        constructor
        · rintro ⟨hex, hall⟩
          exact ⟨hex, he, hall⟩
        · rintro ⟨hex, -, hall⟩
          exact ⟨hex, hall⟩

theorem matchRow_some_iff (fs : List (String → Option (String × String))) (s : String)
    (kv : String × String) :
    matchRow fs s = some kv ↔
      ∃ j f, fs[j]? = some f ∧ f s = some kv ∧ ∀ f' ∈ fs.take j, f' s = none := by
  induction fs with
  | nil => simp [matchRow]
  | cons f rest ih =>
    unfold matchRow
    cases hf : f s with
    | some kv' =>
      constructor
      · intro h
        obtain rfl := Option.some.inj h
        exact ⟨0, f, by simp, hf, by simp⟩
      · rintro ⟨j, g, hg, hgs, hall⟩
        cases j with
        | zero =>
          rw [List.getElem?_cons_zero] at hg
          obtain rfl := Option.some.inj hg
          rw [hf] at hgs
          exact hgs
        | succ j' =>
          exfalso
          have hmem : f ∈ (f :: rest).take (j' + 1) := by
            rw [List.take_succ_cons]
            exact List.mem_cons_self _ _
          exact Option.noConfusion (hf ▸ hall f hmem)
    | none =>
      rw [ih]
      constructor
      · rintro ⟨j, g, hg, hgs, hall⟩
        refine ⟨j + 1, g, by simpa using hg, hgs, ?_⟩
        rw [List.take_succ_cons]
        intro f' hf'
        rcases List.mem_cons.mp hf' with rfl | hf'
        · exact hf
        · exact hall f' hf'
      · rintro ⟨j, g, hg, hgs, hall⟩
        cases j with
        | zero =>
          rw [List.getElem?_cons_zero] at hg
          obtain rfl := Option.some.inj hg
          rw [hf] at hgs
          exact Option.noConfusion hgs
        | succ j' =>
          refine ⟨j', g, by simpa using hg, hgs, ?_⟩
          intro f' hf'
          refine hall f' ?_
          rw [List.take_succ_cons]
          exact List.mem_cons_of_mem _ hf'

/-- C3: per-line classification follows the strict precedence of the line
loop.  A skip hit (literal equality or skip regex on the stripped line)
skips the line with no state change, no data and no diagnostic; otherwise
the first hierarchy dimension whose extractor matches wins (all earlier
dimensions fail), updating exactly that dimension and never invoking row
extraction on the same line; only when no hierarchy extractor matches is
the first matching row extractor used, forwarding its key/value to the
assembler; lines matching nothing append exactly one diagnostic. -/
theorem c3_classification_precedence (cfg : Config) (st : DriverState) (lc : Nat)
    (line : String) :
    (isSkipLine cfg (pyStrip line) = true →
      classify cfg line = LineResult.skip ∧ procLine cfg st lc line = some st) ∧
    (isSkipLine cfg (pyStrip line) = false →
      ∀ i v, matchHier cfg.hierExtractors (pyStrip line) = some (i, v) →
        classify cfg line = LineResult.hierarchyUpdate i v ∧
        procLine cfg st lc line = some { st with hier := st.hier.set i (some v) } ∧
        (∃ e, cfg.hierExtractors[i]? = some e ∧
          extractorMatch e (pyStrip line) = some v) ∧
        (∀ e' ∈ cfg.hierExtractors.take i, extractorMatch e' (pyStrip line) = none)) ∧
    (isSkipLine cfg (pyStrip line) = false →
      matchHier cfg.hierExtractors (pyStrip line) = none →
      ∀ k v, matchRow cfg.rowExtractors (pyStrip line) = some (k, v) →
        classify cfg line = LineResult.rowData k v ∧
        procLine cfg st lc line =
          (addData cfg.orderHandling st.collector st.hier k v).map
            (fun c => { st with collector := c, isHavingData := true }) ∧
        (∃ j f, cfg.rowExtractors[j]? = some f ∧ f (pyStrip line) = some (k, v) ∧
          ∀ f' ∈ cfg.rowExtractors.take j, f' (pyStrip line) = none)) ∧
    (isSkipLine cfg (pyStrip line) = false →
      matchHier cfg.hierExtractors (pyStrip line) = none →
      matchRow cfg.rowExtractors (pyStrip line) = none →
      classify cfg line = LineResult.unrecognized ∧
      procLine cfg st lc line = some { st with diags := st.diags ++ [(lc, pyStrip line)] }) := by
  refine ⟨?_, ?_, ?_, ?_⟩
  · intro hskip
    have hcl : classify cfg line = LineResult.skip := by
      unfold classify
      rw [if_pos hskip]
    exact ⟨hcl, by unfold procLine; rw [hcl]⟩
  · intro hskip i v hmh
    have hcl : classify cfg line = LineResult.hierarchyUpdate i v := by
      unfold classify
      rw [if_neg (by rw [hskip]; exact Bool.false_ne_true), hmh]
    obtain ⟨hex, hall⟩ := (matchHier_some_iff _ _ _ _).mp hmh
    exact ⟨hcl, by unfold procLine; rw [hcl], hex, hall⟩
  · intro hskip hmh k v hmr
    have hcl : classify cfg line = LineResult.rowData k v := by
      unfold classify
      rw [if_neg (by rw [hskip]; exact Bool.false_ne_true), hmh, hmr]
    obtain ⟨j, f, hj, hf, hall⟩ := (matchRow_some_iff _ _ _).mp hmr
    exact ⟨hcl, by unfold procLine; rw [hcl], j, f, hj, hf, hall⟩
  · intro hskip hmh hmr
    have hcl : classify cfg line = LineResult.unrecognized := by
      unfold classify
      rw [if_neg (by rw [hskip]; exact Bool.false_ne_true), hmh, hmr]
    exact ⟨hcl, by unfold procLine; rw [hcl]⟩

/-- A small concrete configuration used by the driver-level witnesses: one
keyword-series dimension, one pattern dimension, one row extractor, one
skip literal. -/
def witnessConfig : Config :=
  { hierExtractors :=
      [HierExtractor.series [("alpha:", "A")],
       HierExtractor.pattern (fun s => if s = "beta" then some "B" else none)]
    orderHandling := ["", "col"]
    rowExtractors := [fun s => if s = "k: 1" then some ("k", "1") else none]
    skipLiterals := ["skipme"]
    skipRegexes := [] }

/-- The driver state used by the witnesses. -/
def witnessState : DriverState :=
  { hier := [none, none]
    collector := initCollector
    isHavingData := false
    diags := [] }

/-- Witness for C3: on the concrete configuration, a skip literal is
skipped, a keyword-series line updates exactly dimension 0, and an unknown
line yields one diagnostic. -/
theorem c3_classification_precedence_witness :
    (classify witnessConfig " skipme " = LineResult.skip ∧
      procLine witnessConfig witnessState 7 " skipme " = some witnessState) ∧
    (classify witnessConfig " alpha: " = LineResult.hierarchyUpdate 0 "A" ∧
      procLine witnessConfig witnessState 7 " alpha: " =
        some { witnessState with hier := [some "A", none] }) ∧
    (classify witnessConfig "zzz" = LineResult.unrecognized ∧
      procLine witnessConfig witnessState 7 "zzz" =
        some { witnessState with diags := [(7, "zzz")] }) := by
  refine ⟨?_, ?_, ?_⟩
  · exact (c3_classification_precedence witnessConfig witnessState 7 " skipme ").1 rfl
  · have h := (c3_classification_precedence witnessConfig witnessState 7 " alpha: ").2.1
      rfl 0 "A" rfl
    exact ⟨h.1, h.2.1⟩
  · exact ((c3_classification_precedence witnessConfig witnessState 7 "zzz").2.2.2
      rfl rfl rfl)

theorem runLines_no_rowdata (cfg : Config) (lines : List String) :
    ∀ (st : DriverState) (lc : Nat),
      (∀ l ∈ lines, ∀ k v, classify cfg l ≠ LineResult.rowData k v) →
      st.isHavingData = false →
      ∃ st', runLines cfg st lc lines = some st' ∧ st'.isHavingData = false := by
  induction lines with
  | nil =>
    intro st lc _ hdata
    exact ⟨st, rfl, hdata⟩
  | cons l rest ih =>
    intro st lc hnone hdata
    have hrest : ∀ l' ∈ rest, ∀ k v, classify cfg l' ≠ LineResult.rowData k v :=
      fun l' hl' => hnone l' (List.mem_cons_of_mem _ hl')
    unfold runLines
    cases hcl : classify cfg l with
    | skip =>
      rw [show procLine cfg st lc l = some st by unfold procLine; rw [hcl]]
      exact ih st (lc + 1) hrest hdata
    | hierarchyUpdate i v =>
      rw [show procLine cfg st lc l = some { st with hier := st.hier.set i (some v) } by
        unfold procLine; rw [hcl]]
      exact ih _ (lc + 1) hrest hdata
    | rowData k v =>
      exact absurd hcl (hnone l (List.mem_cons_self _ _) k v)
    | unrecognized =>
      rw [show procLine cfg st lc l = some { st with diags := st.diags ++ [(lc, pyStrip l)] } by
        unfold procLine; rw [hcl]]
      exact ih _ (lc + 1) hrest hdata

/-- C8: when no line of the input classifies as row data, the run completes
normally (no crash), no output artifact is created, and emission is skipped
entirely. -/
theorem c8_no_data_no_artifact (cfg : Config) (lines : List String)
    (hnone : ∀ l ∈ lines, ∀ k v, classify cfg l ≠ LineResult.rowData k v) :
    ∃ diags, processLog cfg lines = some (none, diags) := by
  obtain ⟨st', hrun, hdata⟩ := runLines_no_rowdata cfg lines (initState cfg) 1 hnone rfl
  refine ⟨st'.diags, ?_⟩
  unfold processLog
  rw [hrun]
  simp [hdata]

/-- Witness for C8: a one-line input whose only line is unrecognized
produces a normal run with no artifact. -/
theorem c8_no_data_no_artifact_witness :
    ∃ diags, processLog witnessConfig ["zzz"] = some (none, diags) :=
  c8_no_data_no_artifact witnessConfig ["zzz"] (by
    intro l hl k v
    obtain rfl := List.mem_singleton.mp hl
    intro h
    rw [show classify witnessConfig "zzz" = LineResult.unrecognized from rfl] at h
    exact LineResult.noConfusion h)

theorem partitionStep_rowName {acc : Partition} {x : Name × String} (h : x.2 ≠ "row") :
    (partitionStep acc x).rowName = acc.rowName := by
  unfold partitionStep
  by_cases hs : x.2 = "sheet"
  · rw [if_pos hs]
  · rw [if_neg hs, if_neg h]
    by_cases hc : x.2 = "col"
    · rw [if_pos hc]
    · rw [if_neg hc]

theorem partitionStep_row {acc : Partition} {x : Name × String} (h : x.2 = "row") :
    (partitionStep acc x).rowName = x.1 := by
  unfold partitionStep
  rw [if_neg (by rw [h]; decide), if_pos h]

theorem partitionStep_colName {acc : Partition} {x : Name × String} (h : x.2 ≠ "col") :
    (partitionStep acc x).colName = acc.colName := by
  unfold partitionStep
  by_cases hs : x.2 = "sheet"
  · rw [if_pos hs]
  · rw [if_neg hs]
    by_cases hr : x.2 = "row"
    · rw [if_pos hr]
    · rw [if_neg hr, if_neg h]

theorem partitionStep_col {acc : Partition} {x : Name × String} (h : x.2 = "col") :
    (partitionStep acc x).colName = x.1 := by
  unfold partitionStep
  rw [if_neg (by rw [h]; decide), if_neg (by rw [h]; decide), if_pos h]

theorem partitionStep_addr {acc : Partition} {x : Name × String} (h : x.2 ≠ "sheet") :
    (partitionStep acc x).addr = acc.addr := by
  unfold partitionStep
  rw [if_neg h]
  by_cases hr : x.2 = "row"
  · rw [if_pos hr]
  · rw [if_neg hr]
    by_cases hc : x.2 = "col"
    · rw [if_pos hc]
    · rw [if_neg hc]

theorem partitionStep_sheet {acc : Partition} {x : Name × String} (h : x.2 = "sheet") :
    (partitionStep acc x).addr = SheetAddr.key x.1 := by
  unfold partitionStep
  rw [if_pos h]

theorem partitionRoles_rowName_const (l : List (Name × String)) (acc : Partition)
    (hno : ∀ pr ∈ l, pr.2 ≠ "row") :
    (partitionRoles l acc).rowName = acc.rowName := by
  induction l generalizing acc with
  | nil => rfl
  | cons x rest ih =>
    rw [partitionRoles, List.foldl_cons]
    have := ih (partitionStep acc x) (fun pr hpr => hno pr (List.mem_cons_of_mem _ hpr))
    rw [partitionRoles] at this
    rw [this, partitionStep_rowName (hno x (List.mem_cons_self _ _))]

theorem partitionRoles_colName_const (l : List (Name × String)) (acc : Partition)
    (hno : ∀ pr ∈ l, pr.2 ≠ "col") :
    (partitionRoles l acc).colName = acc.colName := by
  induction l generalizing acc with
  | nil => rfl
  | cons x rest ih =>
    rw [partitionRoles, List.foldl_cons]
    have := ih (partitionStep acc x) (fun pr hpr => hno pr (List.mem_cons_of_mem _ hpr))
    rw [partitionRoles] at this
    rw [this, partitionStep_colName (hno x (List.mem_cons_self _ _))]

theorem partitionRoles_addr_const (l : List (Name × String)) (acc : Partition)
    (hno : ∀ pr ∈ l, pr.2 ≠ "sheet") :
    (partitionRoles l acc).addr = acc.addr := by
  induction l generalizing acc with
  | nil => rfl
  | cons x rest ih =>
    rw [partitionRoles, List.foldl_cons]
    have := ih (partitionStep acc x) (fun pr hpr => hno pr (List.mem_cons_of_mem _ hpr))
    rw [partitionRoles] at this
    rw [this, partitionStep_addr (hno x (List.mem_cons_self _ _))]

theorem partitionRoles_append (l1 l2 : List (Name × String)) (acc : Partition) :
    partitionRoles (l1 ++ l2) acc = partitionRoles l2 (partitionRoles l1 acc) := by
  unfold partitionRoles
  exact List.foldl_append _ _ _ _

/-- C10: in the role-partitioning loop that `addData` runs over the
(hierarchy value, role) pairs, the defaulting of the row/col name to the
data key applies only when no dimension carries that role; when a dimension
with role `row`, `col` or `sheet` exists, its current value — including the
unset `None` — is used verbatim as the row name, column name, or sheet
key. -/
theorem c10_unset_dimension_used_verbatim (c : Collector) (key : String) :
    (∀ roles hier, (∀ p ∈ roles, p ≠ "row") →
      (partitionFor roles c hier key).rowName = some key) ∧
    (∀ roles hier, (∀ p ∈ roles, p ≠ "col") →
      (partitionFor roles c hier key).colName = some key) ∧
    (∀ roles hier, (∀ p ∈ roles, p ≠ "sheet") →
      (partitionFor roles c hier key).addr = SheetAddr.default) ∧
    (∀ (a b : List String) (ha hb : List Name) (h : Name),
      (∀ p ∈ a, p ≠ "row") → (∀ p ∈ b, p ≠ "row") → ha.length = a.length →
      (partitionFor (a ++ "row" :: b) c (ha ++ h :: hb) key).rowName = h) ∧
    (∀ (a b : List String) (ha hb : List Name) (h : Name),
      (∀ p ∈ a, p ≠ "col") → (∀ p ∈ b, p ≠ "col") → ha.length = a.length →
      (partitionFor (a ++ "col" :: b) c (ha ++ h :: hb) key).colName = h) ∧
    (∀ (a b : List String) (ha hb : List Name) (h : Name),
      (∀ p ∈ a, p ≠ "sheet") → (∀ p ∈ b, p ≠ "sheet") → ha.length = a.length →
      (partitionFor (a ++ "sheet" :: b) c (ha ++ h :: hb) key).addr = SheetAddr.key h) := by
  have hzip : ∀ (role : String) (a b : List String) (ha hb : List Name) (h : Name),
      ha.length = a.length →
      (ha ++ h :: hb).zip (a ++ role :: b) = ha.zip a ++ (h, role) :: hb.zip b := by
    intro role a b ha hb h hlen
    rw [List.zip_append hlen]
    rfl
  have hmemzip : ∀ (role : String) (l1 : List Name) (l2 : List String),
      (∀ p ∈ l2, p ≠ role) → ∀ pr ∈ l1.zip l2, pr.2 ≠ role := by
    intro role l1 l2 hno pr hpr
    exact hno pr.2 (List.of_mem_zip hpr).2
  refine ⟨?_, ?_, ?_, ?_, ?_, ?_⟩
  · intro roles hier hno
    exact partitionRoles_rowName_const _ _ (hmemzip _ _ _ hno)
  · intro roles hier hno
    exact partitionRoles_colName_const _ _ (hmemzip _ _ _ hno)
  · intro roles hier hno
    exact partitionRoles_addr_const _ _ (hmemzip _ _ _ hno)
  · intro a b ha hb h hpre hsuf hlen
    unfold partitionFor
    rw [hzip _ _ _ _ _ _ hlen, partitionRoles_append]
    rw [show partitionRoles ((h, "row") :: hb.zip b) (partitionRoles (ha.zip a) (initPartition c key)) =
      partitionRoles (hb.zip b) (partitionStep (partitionRoles (ha.zip a) (initPartition c key)) (h, "row")) by
      simp only [partitionRoles, List.foldl_cons]]
    rw [partitionRoles_rowName_const _ _ (hmemzip _ _ _ hsuf),
      partitionStep_row rfl]
  · intro a b ha hb h hpre hsuf hlen
    unfold partitionFor
    rw [hzip _ _ _ _ _ _ hlen, partitionRoles_append]
    rw [show partitionRoles ((h, "col") :: hb.zip b) (partitionRoles (ha.zip a) (initPartition c key)) =
      partitionRoles (hb.zip b) (partitionStep (partitionRoles (ha.zip a) (initPartition c key)) (h, "col")) by
      simp only [partitionRoles, List.foldl_cons]]
    rw [partitionRoles_colName_const _ _ (hmemzip _ _ _ hsuf),
      partitionStep_col rfl]
  · intro a b ha hb h hpre hsuf hlen
    unfold partitionFor
    rw [hzip _ _ _ _ _ _ hlen, partitionRoles_append]
    rw [show partitionRoles ((h, "sheet") :: hb.zip b) (partitionRoles (ha.zip a) (initPartition c key)) =
      partitionRoles (hb.zip b) (partitionStep (partitionRoles (ha.zip a) (initPartition c key)) (h, "sheet")) by
      simp only [partitionRoles, List.foldl_cons]]
    rw [partitionRoles_addr_const _ _ (hmemzip _ _ _ hsuf),
      partitionStep_sheet rfl]

/-- Witness for C10: with a single `row`-role dimension whose value is still
unset, the row name is the null value itself, not the data key; with no
`row`-role dimension the row name defaults to the key; and a full `addData`
call with the unset `row` dimension produces a table whose row header list
is `[none]`. -/
theorem c10_unset_dimension_used_verbatim_witness :
    (partitionFor ["row"] initCollector [none] "k").rowName = none ∧
    (partitionFor [""] initCollector [some "x"] "k").rowName = some "k" ∧
    (partitionFor ["col"] initCollector [none] "k").colName = none ∧
    (partitionFor ["sheet"] initCollector [none] "k").addr = SheetAddr.key none ∧
    addData ["row"] initCollector [none] "k" "v" =
      some { sheetDict := [], defaultSheet := [newTable (some "") (some "k") none "v"] } := by
  have h := c10_unset_dimension_used_verbatim initCollector "k"
  refine ⟨?_, ?_, ?_, ?_, by rfl⟩
  · exact h.2.2.2.1 [] [] [] [] none (by simp) (by simp) rfl
  · exact h.1 [""] [some "x"] (by decide)
  · exact h.2.2.2.2.1 [] [] [] [] none (by simp) (by simp) rfl
  · exact h.2.2.2.2.2 [] [] [] [] none (by simp) (by simp) rfl

/-- C2 counterexample: a configuration with two `sheet` roles, no `row` role
and no `col` role (violating three of the claimed invariants at once) passes
the load-time validation of the source — the claim that such configurations
are rejected at startup is false. -/
theorem c2_load_validation_counterexample :
    configLoadCheck [HierExtractor.series [], HierExtractor.series []]
      ["sheet", "sheet"] = true ∧
    (["sheet", "sheet"].filter (fun p => p = "sheet")).length = 2 ∧
    "row" ∉ ["sheet", "sheet"] ∧ "col" ∉ ["sheet", "sheet"] := by
  exact ⟨rfl, by decide, by decide, by decide⟩

/-- C2 (amended): the only configuration validation performed at load time
is the module-level length assertion — it succeeds exactly when the
hierarchy-extractor list and the role-assignment list have equal length.
The at-most-one `sheet`/`row`/`col` and at-least-one-of-`row`/`col`
invariants are documented in the source but never checked: configurations
violating each of them are accepted. -/
theorem c2_load_validation_length_only :
    (∀ (mo : List HierExtractor) (oh : List String),
      configLoadCheck mo oh = true ↔ mo.length = oh.length) ∧
    (∃ (mo : List HierExtractor) (oh : List String),
      configLoadCheck mo oh = true ∧ 2 ≤ (oh.filter (fun p => p = "sheet")).length) ∧
    (∃ (mo : List HierExtractor) (oh : List String),
      configLoadCheck mo oh = true ∧ 2 ≤ (oh.filter (fun p => p = "row")).length) ∧
    (∃ (mo : List HierExtractor) (oh : List String),
      configLoadCheck mo oh = true ∧ 2 ≤ (oh.filter (fun p => p = "col")).length) ∧
    (∃ (mo : List HierExtractor) (oh : List String),
      configLoadCheck mo oh = true ∧ "row" ∉ oh ∧ "col" ∉ oh) := by
  refine ⟨?_, ?_, ?_, ?_, ?_⟩
  · intro mo oh
    unfold configLoadCheck
    exact beq_iff_eq
  · exact ⟨[HierExtractor.series [], HierExtractor.series []], ["sheet", "sheet"],
      rfl, by decide⟩
  · exact ⟨[HierExtractor.series [], HierExtractor.series []], ["row", "row"],
      rfl, by decide⟩
  · exact ⟨[HierExtractor.series [], HierExtractor.series []], ["col", "col"],
      rfl, by decide⟩
  · exact ⟨[HierExtractor.series []], ["sheet"], rfl, by decide, by decide⟩

theorem seqOpt_cons_none {α : Type} (l : List (Option α)) :
    seqOpt (none :: l) = none := rfl

theorem seqOpt_cons_some {α : Type} (a : α) (l : List (Option α)) :
    seqOpt (some a :: l) = (seqOpt l).map (fun xs => a :: xs) := by
  show (match seqOpt l with
    | some xs => some (a :: xs)
    | none => none) = _
  cases seqOpt l <;> rfl

theorem enumFrom_map_shift {α β : Type} (l : List α) (n : Nat) (f : Nat × α → β) :
    (l.enumFrom (n + 1)).map f = (l.enumFrom n).map (fun p => f (p.1 + 1, p.2)) := by
  induction l generalizing n with
  | nil => rfl
  | cons a rest ih =>
    show f (n + 1, a) :: (rest.enumFrom (n + 2)).map f = _
    rw [ih (n + 1)]
    rfl

theorem writeColsAux_spec (cols : List Name) (base : Nat) :
    ∀ c₀ : Nat, writeColsAux base c₀ cols =
      seqOpt ((cols.enumFrom c₀).map (fun p => (processCellName p.2).map
        (fun v => ((base, 1 + p.1, v) : Write)))) := by
  induction cols with
  | nil => intro c₀; rfl
  | cons h rest ih =>
    intro c₀
    show (match processCellName h, writeColsAux base (c₀ + 1) rest with
      | some v, some ws => some ((base, 1 + c₀, v) :: ws)
      | _, _ => none) = _
    rw [show (h :: rest).enumFrom c₀ = (c₀, h) :: rest.enumFrom (c₀ + 1) from rfl,
      List.map_cons]
    cases hh : processCellName h with
    | none =>
      rw [ih (c₀ + 1)]
      cases hs : seqOpt ((rest.enumFrom (c₀ + 1)).map (fun p => (processCellName p.2).map
          (fun v => ((base, 1 + p.1, v) : Write)))) <;>
        simp [hh, hs, seqOpt_cons_none, seqOpt_cons_some]
    | some v =>
      rw [ih (c₀ + 1)]
      cases hs : seqOpt ((rest.enumFrom (c₀ + 1)).map (fun p => (processCellName p.2).map
          (fun v => ((base, 1 + p.1, v) : Write)))) <;>
        simp [hh, hs, seqOpt_cons_none, seqOpt_cons_some]

theorem writeCellsAux_spec (cols : List Name) (rowIndex : Nat)
    (rowData : List (Name × String)) :
    ∀ c₀ : Nat, writeCellsAux rowIndex c₀ cols rowData =
      (cols.enumFrom c₀).filterMap (fun q => (alFind rowData q.2).map
        (fun v => ((rowIndex, 1 + q.1, processCellData v) : Write))) := by
  induction cols with
  | nil => intro c₀; rfl
  | cons k rest ih =>
    intro c₀
    show (match alFind rowData k with
      | some v => (rowIndex, 1 + c₀, processCellData v) ::
          writeCellsAux rowIndex (c₀ + 1) rest rowData
      | none => writeCellsAux rowIndex (c₀ + 1) rest rowData) = _
    rw [show (k :: rest).enumFrom c₀ = (c₀, k) :: rest.enumFrom (c₀ + 1) from rfl]
    cases hk : alFind rowData k with
    | none => rw [ih (c₀ + 1)]; simp [List.filterMap_cons, hk]
    | some v => rw [ih (c₀ + 1)]; simp [List.filterMap_cons, hk]

theorem writeRowsAux_spec (rows : List Name) (base : Nat) (cols : List Name)
    (data : TableData) :
    ∀ r₀ : Nat, writeRowsAux base cols data r₀ rows =
      (seqOpt ((rows.enumFrom r₀).map
        (fun p => specDataRow base cols data p.1 p.2))).map List.flatten := by
  induction rows with
  | nil => intro r₀; rfl
  | cons rh rest ih =>
    intro r₀
    show (match processCellName rh, writeRowsAux base cols data (r₀ + 1) rest with
      | some hv, some ws =>
        some (((base + 1 + r₀, 0, hv) ::
          writeCellsAux (base + 1 + r₀) 0 cols ((alFind data rh).getD [])) ++ ws)
      | _, _ => none) = _
    rw [show (rh :: rest).enumFrom r₀ = (r₀, rh) :: rest.enumFrom (r₀ + 1) from rfl,
      List.map_cons]
    cases hh : processCellName rh with
    | none =>
      rw [ih (r₀ + 1)]
      cases hs : seqOpt ((rest.enumFrom (r₀ + 1)).map
          (fun p => specDataRow base cols data p.1 p.2)) <;>
        simp [specDataRow, hh, hs, seqOpt_cons_none, seqOpt_cons_some]
    | some hv =>
      rw [ih (r₀ + 1)]
      have hhead : specDataRow base cols data r₀ rh =
          some ((base + 1 + r₀, 0, hv) ::
            cols.enum.filterMap (fun q =>
              (alFind ((alFind data rh).getD []) q.2).map
                (fun v => ((base + 1 + r₀, 1 + q.1, processCellData v) : Write)))) := by
        unfold specDataRow
        rw [hh]
        rfl
      rw [hhead, seqOpt_cons_some]
      cases hs : seqOpt ((rest.enumFrom (r₀ + 1)).map
          (fun p => specDataRow base cols data p.1 p.2)) with
      | none => rfl
      | some ws =>
        rw [writeCellsAux_spec cols (base + 1 + r₀) ((alFind data rh).getD []) 0]
        rfl

theorem writeTable_spec (base : Nat) (t : Table) :
    writeTable base t = specBlock base t := by
  unfold writeTable specBlock specHeaderRow
  rw [writeColsAux_spec t.cols base 0, writeRowsAux_spec t.rows base t.cols t.data 0]
  rw [show t.cols.enum = t.cols.enumFrom 0 from rfl,
    show t.rows.enum = t.rows.enumFrom 0 from rfl]
  cases ht : processCellName t.title with
  | none =>
    cases hc : seqOpt ((t.cols.enumFrom 0).map (fun p => (processCellName p.2).map
        (fun v => ((base, 1 + p.1, v) : Write)))) <;>
      cases hr : seqOpt ((t.rows.enumFrom 0).map
        (fun p => specDataRow base t.cols t.data p.1 p.2)) <;> rfl
  | some tv =>
    cases hc : seqOpt ((t.cols.enumFrom 0).map (fun p => (processCellName p.2).map
        (fun v => ((base, 1 + p.1, v) : Write)))) <;>
      cases hr : seqOpt ((t.rows.enumFrom 0).map
        (fun p => specDataRow base t.cols t.data p.1 p.2)) <;> rfl

theorem specBase_zero (l : List Table) : specBase l 0 = 0 := by
  simp [specBase]

theorem specBase_cons_succ (t : Table) (l : List Table) (k : Nat) :
    specBase (t :: l) (k + 1) = (2 + t.rows.length) + specBase l k := by
  simp [specBase, List.take_succ_cons]

theorem writeSheetAux_spec (l : List Table) :
    ∀ base : Nat, writeSheetAux base l =
      (seqOpt (l.enum.map (fun p => specBlock (base + specBase l p.1) p.2))).map
        List.flatten := by
  induction l with
  | nil => intro base; rfl
  | cons t rest ih =>
    intro base
    show (match writeTable base t, writeSheetAux (base + (2 + t.rows.length)) rest with
      | some w, some ws => some (w ++ ws)
      | _, _ => none) = _
    rw [writeTable_spec, ih (base + (2 + t.rows.length))]
    rw [show (t :: rest).enum = (0, t) :: rest.enumFrom 1 from rfl, List.map_cons]
    have htail : (rest.enumFrom 1).map
        (fun p => specBlock (base + specBase (t :: rest) p.1) p.2) =
        rest.enum.map (fun p =>
          specBlock ((base + (2 + t.rows.length)) + specBase rest p.1) p.2) := by
      rw [show (1 : Nat) = 0 + 1 from rfl, enumFrom_map_shift]
      rw [show rest.enum = rest.enumFrom 0 from rfl]
      refine List.map_congr_left ?_
      intro p hp
      show specBlock (base + specBase (t :: rest) (p.1 + 1)) p.2 = _
      rw [specBase_cons_succ,
        show base + ((2 + t.rows.length) + specBase rest p.1) =
          (base + (2 + t.rows.length)) + specBase rest p.1 from by omega]
    rw [htail, specBase_zero, Nat.add_zero]
    cases hb : specBlock base t with
    | none =>
      cases hs : seqOpt (rest.enum.map (fun p =>
          specBlock ((base + (2 + t.rows.length)) + specBase rest p.1) p.2)) <;>
        simp [hs, seqOpt_cons_none, seqOpt_cons_some]
    | some w =>
      cases hs : seqOpt (rest.enum.map (fun p =>
          specBlock ((base + (2 + t.rows.length)) + specBase rest p.1) p.2)) with
      | none => simp [hs, seqOpt_cons_none, seqOpt_cons_some]
      | some ws => simp [hs, seqOpt_cons_none, seqOpt_cons_some]

theorem writeColsAux_row (cols : List Name) (base : Nat) :
    ∀ (c₀ : Nat) (ws : List Write), writeColsAux base c₀ cols = some ws →
      ∀ q ∈ ws, q.1 = base := by
  induction cols with
  | nil =>
    intro c₀ ws h q hq
    obtain rfl := Option.some.inj h
    simp at hq
  | cons h rest ih =>
    intro c₀ ws hws q hq
    unfold writeColsAux at hws
    cases hh : processCellName h with
    | none =>
      rw [hh] at hws
      cases hrest : writeColsAux base (c₀ + 1) rest <;> rw [hrest] at hws <;>
        exact Option.noConfusion hws
    | some v =>
      rw [hh] at hws
      cases hrest : writeColsAux base (c₀ + 1) rest with
      | none => rw [hrest] at hws; exact Option.noConfusion hws
      | some ws' =>
        rw [hrest] at hws
        obtain rfl := Option.some.inj hws
        rcases List.mem_cons.mp hq with rfl | hq'
        · rfl
        · exact ih (c₀ + 1) ws' hrest q hq'

theorem writeCellsAux_row (cols : List Name) (rowIndex : Nat)
    (rowData : List (Name × String)) :
    ∀ c₀ : Nat, ∀ q ∈ writeCellsAux rowIndex c₀ cols rowData, q.1 = rowIndex := by
  induction cols with
  | nil =>
    intro c₀ q hq
    simp [writeCellsAux] at hq
  | cons k rest ih =>
    intro c₀ q hq
    unfold writeCellsAux at hq
    cases hk : alFind rowData k with
    | none =>
      rw [hk] at hq
      exact ih (c₀ + 1) q hq
    | some v =>
      rw [hk] at hq
      rcases List.mem_cons.mp hq with rfl | hq'
      · rfl
      · exact ih (c₀ + 1) q hq'

theorem writeRowsAux_row (rows : List Name) (base : Nat) (cols : List Name)
    (data : TableData) :
    ∀ (r₀ : Nat) (ws : List Write), writeRowsAux base cols data r₀ rows = some ws →
      ∀ q ∈ ws, base + 1 + r₀ ≤ q.1 ∧ q.1 ≤ base + r₀ + rows.length := by
  induction rows with
  | nil =>
    intro r₀ ws h q hq
    obtain rfl := Option.some.inj h
    simp at hq
  | cons rh rest ih =>
    intro r₀ ws hws q hq
    simp only [List.length_cons]
    unfold writeRowsAux at hws
    cases hh : processCellName rh with
    | none =>
      rw [hh] at hws
      cases hrest : writeRowsAux base cols data (r₀ + 1) rest <;> rw [hrest] at hws <;>
        exact Option.noConfusion hws
    | some hv =>
      rw [hh] at hws
      cases hrest : writeRowsAux base cols data (r₀ + 1) rest with
      | none => rw [hrest] at hws; exact Option.noConfusion hws
      | some ws' =>
        rw [hrest] at hws
        obtain rfl := Option.some.inj hws
        rcases List.mem_append.mp hq with hq' | hq'
        · rcases List.mem_cons.mp hq' with rfl | hq''
          · constructor <;> omega
          · have hc := writeCellsAux_row cols (base + 1 + r₀) ((alFind data rh).getD []) 0 q hq''
            omega
        · have hb := ih (r₀ + 1) ws' hrest q hq'
          omega

theorem writeTable_bound (base : Nat) (t : Table) (w : List Write)
    (hw : writeTable base t = some w) :
    ∀ q ∈ w, base ≤ q.1 ∧ q.1 ≤ base + t.rows.length := by
  unfold writeTable at hw
  cases ht : processCellName t.title with
  | none =>
    rw [ht] at hw
    cases hc : writeColsAux base 0 t.cols <;> rw [hc] at hw <;>
      cases hr : writeRowsAux base t.cols t.data 0 t.rows <;> rw [hr] at hw <;>
        exact Option.noConfusion hw
  | some tv =>
    rw [ht] at hw
    cases hc : writeColsAux base 0 t.cols with
    | none =>
      rw [hc] at hw
      cases hr : writeRowsAux base t.cols t.data 0 t.rows <;> rw [hr] at hw <;>
        exact Option.noConfusion hw
    | some cw =>
      rw [hc] at hw
      cases hr : writeRowsAux base t.cols t.data 0 t.rows with
      | none => rw [hr] at hw; exact Option.noConfusion hw
      | some rws =>
        rw [hr] at hw
        obtain rfl := Option.some.inj hw
        intro q hq
        rcases List.mem_cons.mp hq with rfl | hq'
        · constructor <;> omega
        · rcases List.mem_append.mp hq' with h | h
          · have := writeColsAux_row t.cols base 0 cw hc q h
            omega
          · have := writeRowsAux_row t.rows base t.cols t.data 0 rws hr q h
            omega

theorem writeSheetAux_ge (l : List Table) :
    ∀ (base : Nat) (ws : List Write), writeSheetAux base l = some ws →
      ∀ q ∈ ws, base ≤ q.1 := by
  induction l with
  | nil =>
    intro base ws h q hq
    obtain rfl := Option.some.inj h
    simp at hq
  | cons t rest ih =>
    intro base ws hws q hq
    unfold writeSheetAux at hws
    cases hw : writeTable base t with
    | none =>
      rw [hw] at hws
      cases hrest : writeSheetAux (base + (2 + t.rows.length)) rest <;> rw [hrest] at hws <;>
        exact Option.noConfusion hws
    | some w =>
      rw [hw] at hws
      cases hrest : writeSheetAux (base + (2 + t.rows.length)) rest with
      | none => rw [hrest] at hws; exact Option.noConfusion hws
      | some ws' =>
        rw [hrest] at hws
        obtain rfl := Option.some.inj hws
        rcases List.mem_append.mp hq with h | h
        · exact (writeTable_bound base t w hw q h).1
        · have := ih (base + (2 + t.rows.length)) ws' hrest q h
          omega

theorem writeSheetAux_separator (pre : List Table) :
    ∀ (base : Nat) (t : Table) (suf : List Table) (ws : List Write),
      writeSheetAux base (pre ++ t :: suf) = some ws →
      ∀ q ∈ ws,
        q.1 ≠ base + (pre.map (fun x => 2 + x.rows.length)).sum + 1 + t.rows.length := by
  induction pre with
  | nil =>
    intro base t suf ws hws q hq
    simp only [List.nil_append, List.map_nil, List.sum_nil, Nat.add_zero] at hws ⊢
    unfold writeSheetAux at hws
    cases hw : writeTable base t with
    | none =>
      rw [hw] at hws
      cases hrest : writeSheetAux (base + (2 + t.rows.length)) suf <;> rw [hrest] at hws <;>
        exact Option.noConfusion hws
    | some w =>
      rw [hw] at hws
      cases hrest : writeSheetAux (base + (2 + t.rows.length)) suf with
      | none => rw [hrest] at hws; exact Option.noConfusion hws
      | some ws' =>
        rw [hrest] at hws
        obtain rfl := Option.some.inj hws
        rcases List.mem_append.mp hq with h | h
        · have := writeTable_bound base t w hw q h
          omega
        · have := writeSheetAux_ge suf (base + (2 + t.rows.length)) ws' hrest q h
          omega
  | cons p pre' ih =>
    intro base t suf ws hws q hq
    rw [List.cons_append] at hws
    unfold writeSheetAux at hws
    simp only [List.map_cons, List.sum_cons]
    cases hw : writeTable base p with
    | none =>
      rw [hw] at hws
      cases hrest : writeSheetAux (base + (2 + p.rows.length)) (pre' ++ t :: suf) <;>
        rw [hrest] at hws <;> exact Option.noConfusion hws
    | some w =>
      rw [hw] at hws
      cases hrest : writeSheetAux (base + (2 + p.rows.length)) (pre' ++ t :: suf) with
      | none => rw [hrest] at hws; exact Option.noConfusion hws
      | some ws' =>
        rw [hrest] at hws
        obtain rfl := Option.some.inj hws
        rcases List.mem_append.mp hq with h | h
        · have := writeTable_bound base p w hw q h
          omega
        · have := ih (base + (2 + p.rows.length)) t suf ws' hrest q h
          omega

/-- C7: the emitter lays the tables of a group out top-to-bottom from row
cursor 0 exactly as specified — each table writes its title at column 0 of
its cursor row and its column headers at columns `1..len(cols)` of that
row, then one row per row header with the header at column 0 and each
present cell at the matching column (absent cells left blank), the cursor
of table `k` being the prefix sum of `2 + len(rows)` over earlier tables
(`specLayout`/`specBase`); moreover the separator row after each table's
data rows receives no write at all. -/
theorem c7_emitter_layout (sheetData : List Table) :
    writeSheet sheetData = specLayout sheetData ∧
    ∀ (pre : List Table) (t : Table) (suf : List Table) (ws : List Write),
      sheetData = pre ++ t :: suf → writeSheet sheetData = some ws →
      ∀ q ∈ ws,
        q.1 ≠ (pre.map (fun x => 2 + x.rows.length)).sum + 1 + t.rows.length := by
  constructor
  · unfold writeSheet specLayout
    rw [writeSheetAux_spec]
    congr 1
    congr 1
    refine List.map_congr_left ?_
    intro p hp
    rw [Nat.zero_add]
  · intro pre t suf ws heq hws q hq
    subst heq
    unfold writeSheet at hws
    have := writeSheetAux_separator pre 0 t suf ws hws q hq
    simpa using this

/-- Witness for C7: the layout of a concrete one-table group, all four
writes at their specified positions. -/
theorem c7_emitter_layout_witness :
    writeSheet [newTable (some "T") (some "c") (some "r") "3.5"] =
      specLayout [newTable (some "T") (some "c") (some "r") "3.5"] ∧
    writeSheet [newTable (some "T") (some "c") (some "r") "3.5"] =
      some [(0, 0, CellValue.strVal "T"), (0, 1, CellValue.strVal "c"),
            (1, 0, CellValue.strVal "r"), (1, 1, CellValue.floatVal "3.5")] := by
  exact ⟨(c7_emitter_layout [newTable (some "T") (some "c") (some "r") "3.5"]).1, by decide⟩

end LogParser
